import Mathlib

/-!
Verification of the my_dsl_project DSL interpreter (lexer, parser, evaluator,
orchestrator) against its natural-language specification.

The Rust sources are shallowly embedded below:
  src/utils.rs        unescape_string (five sequential global replacements)
  src/evaluator.rs    EvaluatorState, evaluate_expression,
                      evaluate_field_with_modifiers, get_nested_value_as_string
  src/lexer.rs        Token, tokenize and its helper readers
  src/parser.rs       FieldModifier, FieldWithModifiers, Expression, Command,
                      parse and its sub-routines (parse_path, parse_modifiers,
                      parse_term, parse_expression, parse_transform, ...)
  src/interpreter.rs  the Transform arm of Interpreter::run (build_record,
                      transform_records, run_transforms) and the output
                      selection step (select_output)

Records are ordered string-keyed maps (the Rust code uses IndexMap), embedded
as association lists.  serde_json numbers are embedded as their textual form
(the code never computes with them, it only stringifies).  Strings are Lean
strings; character-level functions work on List Char.
-/

/-! ## JSON values and records -/

/-- Embedding of serde_json::Value.  Numbers carry their serialized decimal
text, since the DSL only ever passes them through to text.  Objects are
ordered association lists, matching the IndexMap record representation and
insertion order of keys. -/
inductive JValue where
  | null : JValue
  | bool : Bool → JValue
  | num : String → JValue
  | str : String → JValue
  | arr : List JValue → JValue
  | obj : List (String × JValue) → JValue

/-- A record: one decoded JSONL line, an ordered string-keyed map. -/
abbrev Record := List (String × JValue)

/-- Ordered-map lookup (IndexMap::get): first entry with the given key. -/
def getRec : Record → String → Option JValue
  | [], _ => none
  | (k', v) :: rest, k => if k' = k then some v else getRec rest k

/-! ## utils.rs: unescape_string

The Rust function is five sequential whole-string replacements, each over the
output of the previous one, in this order: double backslash first, then the
newline, carriage-return, tab and quote escapes.  Rust str::replace scans left
to right and replaces non-overlapping occurrences; for the two-character
patterns used here that is the function replace2 below. -/

/-- One whole-string left-to-right replacement of the two-character pattern
a, b by the replacement r (the str::replace instances used by unescape_string
all have two-character patterns). -/
def replace2 (a b : Char) (r : List Char) : List Char → List Char
  | [] => []
  | [c] => [c]
  | c :: d :: rest =>
    if c = a ∧ d = b then r ++ replace2 a b r rest
    else c :: replace2 a b r (d :: rest)

/-- Embedding of unescape_string from utils.rs: the five sequential
replacements, double backslash first. -/
def unescapeChars (cs : List Char) : List Char :=
  replace2 '\\' '"' ['"']
    (replace2 '\\' 't' ['\t']
      (replace2 '\\' 'r' ['\r']
        (replace2 '\\' 'n' ['\n']
          (replace2 '\\' '\\' ['\\'] cs))))

/-- String-level wrapper of unescapeChars, the interface the evaluator uses. -/
def unescape_string (s : String) : String :=
  (unescapeChars s.data).asString

/-! ## parser.rs data model (AST)

The AST types live in parser.rs; the evaluator consumes them, so they come
first.  Constructor names avoid Lean keywords: prefixMod, suffixMod and
defaultMod stand for the Rust Prefix, Suffix and Default variants, and var
stands for the Rust Variable variant. -/

/-- Embedding of parser.rs FieldModifier. -/
inductive FieldModifier where
  | suffixMod : String → FieldModifier
  | prefixMod : String → FieldModifier
  | defaultMod : String → FieldModifier
deriving DecidableEq, Repr

/-- Embedding of parser.rs FieldWithModifiers. -/
structure FieldWithModifiers where
  path : List String
  modifiers : List FieldModifier
deriving DecidableEq, Repr

/-- Embedding of parser.rs Expression. -/
inductive Expression where
  | fieldPath : List String → Expression
  | fieldWithModifiers : FieldWithModifiers → Expression
  | literal : String → Expression
  | concat : List Expression → Expression
  | rawRecord : Expression
  | serial : Expression
  | var : String → Expression

/-- Embedding of parser.rs Command.  The Rust enum includes Let and Const
variants (letCmd, constCmd here); parser.rs has match arms naming tokens
Token::Let and Token::Const that do not exist in the lexer Token type, so no
parsing path can construct these commands (claim C10). -/
inductive Command where
  | input : String → Command
  | output : String → Command
  | print : Command
  | printLine : Nat → Command
  | transform : List (String × Expression) → Command
  | letCmd : String → Expression → Command
  | constCmd : String → Expression → Command

/-! ## evaluator.rs -/

/-- Embedding of EvaluatorState: the single serial counter.  The Rust field
is a usize; it is embedded as a Nat kept below 2 to the 64 by taking every
increment modulo 2 to the 64 (release-mode wrapping semantics of the
plus-equals in the Serial arm). -/
structure EvaluatorState where
  serial_counter : Nat
deriving DecidableEq, Repr

/-- Embedding of EvaluatorState::new, which starts the counter at 1. -/
def EvaluatorState.new : EvaluatorState := { serial_counter := 1 }

/-- Lower-case hex digit, used by the JSON string escaper below. -/
def hexDigit (n : Nat) : Char :=
  if n < 10 then Char.ofNat (48 + n) else Char.ofNat (97 + (n - 10))

/-- Escaping of one character inside a serialized JSON string, following
serde_json (quote, backslash, the short control escapes, and a four-digit
unicode escape for the remaining control characters). -/
def escapeJsonChar (c : Char) : String :=
  if c = '"' then "\\\""
  else if c = '\\' then "\\\\"
  else if c = '\n' then "\\n"
  else if c = '\r' then "\\r"
  else if c = '\t' then "\\t"
  else if c.toNat = 8 then "\\b"
  else if c.toNat = 12 then "\\f"
  else if c.toNat < 32 then
    "\\u00" ++ String.singleton (hexDigit (c.toNat / 16))
      ++ String.singleton (hexDigit (c.toNat % 16))
  else String.singleton c

/-- A string rendered as a JSON string literal. -/
def quoteJson (s : String) : String :=
  "\"" ++ String.join (s.data.map escapeJsonChar) ++ "\""

mutual

/-- Compact serde_json serialization (Value::to_string), used by
get_nested_value_as_string when a resolved leaf is not a string. -/
def toJsonString : JValue → String
  | .null => "null"
  | .bool true => "true"
  | .bool false => "false"
  | .num t => t
  | .str s => quoteJson s
  | .arr l => "[" ++ jsonArrBody l ++ "]"
  | .obj m => "\x7b" ++ jsonObjBody m ++ "\x7d"

/-- Comma-separated serialization of array elements. -/
def jsonArrBody : List JValue → String
  | [] => ""
  | [x] => toJsonString x
  | x :: y :: rest => toJsonString x ++ "," ++ jsonArrBody (y :: rest)

/-- Comma-separated serialization of object members. -/
def jsonObjBody : List (String × JValue) → String
  | [] => ""
  | [(k, v)] => quoteJson k ++ ":" ++ toJsonString v
  | (k, v) :: m :: rest =>
    quoteJson k ++ ":" ++ toJsonString v ++ "," ++ jsonObjBody (m :: rest)

end

/-- Stringification of a resolved leaf: string values pass through unchanged,
every other value kind is serialized (the final match of
get_nested_value_as_string). -/
def leafString : JValue → String
  | .str s => s
  | other => toJsonString other

/-- The walk over the later path segments: each step requires the current
value to be an object and looks the segment up in it; a missing key or a
non-object intermediate yields none. -/
def walkKeys : JValue → List String → Option String
  | v, [] => some (leafString v)
  | .obj m, k :: rest =>
    match getRec m k with
    | some v' => walkKeys v' rest
    | none => none
  | _, _ :: _ => none

/-- Embedding of get_nested_value_as_string from evaluator.rs.  The Rust code
indexes path[0] directly (the parser only ever produces non-empty paths); the
embedding returns none for an empty path. -/
def get_nested_value_as_string (record : Record) (path : List String) : Option String :=
  match path with
  | [] => none
  | k :: rest =>
    match getRec record k with
    | some v => walkKeys v rest
    | none => none

/-- Pass 1 of evaluate_field_with_modifiers: the loop that applies each
Default modifier in list order whenever the value is still absent or empty. -/
def applyDefaults (ms : List FieldModifier) (v : Option String) : Option String :=
  ms.foldl
    (fun acc m =>
      match m with
      | .defaultMod d => if acc = none ∨ acc = some "" then some (unescape_string d) else acc
      | _ => acc)
    v

/-- Pass 2 of evaluate_field_with_modifiers: the loop that applies each
Prefix and Suffix modifier in list order (Default is skipped here). -/
def applyPS (ms : List FieldModifier) (v : String) : String :=
  ms.foldl
    (fun acc m =>
      match m with
      | .prefixMod p => unescape_string p ++ acc
      | .suffixMod s => acc ++ unescape_string s
      | .defaultMod _ => acc)
    v

/-- Embedding of evaluate_field_with_modifiers from evaluator.rs: resolve the
path, run the Default pass, return the empty string immediately when the value
is absent or empty, otherwise run the Prefix and Suffix pass. -/
def evaluate_field_with_modifiers (field : FieldWithModifiers) (record : Record) :
    Except String String :=
  match applyDefaults field.modifiers (get_nested_value_as_string record field.path) with
  | none => .ok ""
  | some v => if v = "" then .ok "" else .ok (applyPS field.modifiers v)

/-- Embedding of Value::as_str: some only for string values. -/
def asStr : JValue → Option String
  | .str s => some s
  | _ => none

/-- Error text for the expression kind the evaluator does not handle: the Rust
match in evaluate_expression has no arm for Expression::Variable (the failure
path the spec reserves for unhandled expression kinds). -/
def unhandledMsg : String := "EvaluationError: unhandled expression kind"

/-- Embedding of evaluate_expression from evaluator.rs.  The Concat arm folds
the parts left to right, appending each evaluated part through as_str (non
string parts contribute the empty string); it is phrased here by peeling one
part at a time, which builds the same string.  The Variable arm of the
parser AST has no arm in the Rust match and is mapped to the error variant
reserved for unhandled expression kinds.  The Serial arm increments the
usize counter with wrapping (modulo 2 to the 64). -/
def evaluate_expression : Expression → Record → EvaluatorState →
    Except String (JValue × EvaluatorState)
  | .literal s, _, st => .ok (.str (unescape_string s), st)
  | .fieldPath path, record, st =>
    .ok (.str ((get_nested_value_as_string record path).getD ""), st)
  | .fieldWithModifiers f, record, st => do
    let v ← evaluate_field_with_modifiers f record
    .ok (.str v, st)
  | .concat [], _, st => .ok (.str "", st)
  | .concat (p :: rest), record, st => do
    let (v, st') ← evaluate_expression p record st
    let (vrest, st'') ← evaluate_expression (.concat rest) record st'
    .ok (.str ((asStr v).getD "" ++ (asStr vrest).getD ""), st'')
  | .rawRecord, record, st => .ok (.obj record, st)
  | .serial, _, st =>
    .ok (.str (Nat.repr st.serial_counter),
      { st with serial_counter := (st.serial_counter + 1) % 2 ^ 64 })
  | .var _, _, _ => .error unhandledMsg

/-! ## Instrumented evaluator for the serial trace (claim C1)

evalT is evaluate_expression with one additional observation: the list of
strings produced by the Serial arm, in evaluation order.  The agreement lemma
below shows it projects back onto evaluate_expression. -/

/-- Instrumented evaluate_expression: also returns the serial outputs emitted,
in evaluation order. -/
def evalT : Expression → Record → EvaluatorState →
    Except String (JValue × EvaluatorState × List String)
  | .literal s, _, st => .ok (.str (unescape_string s), st, [])
  | .fieldPath path, record, st =>
    .ok (.str ((get_nested_value_as_string record path).getD ""), st, [])
  | .fieldWithModifiers f, record, st => do
    let v ← evaluate_field_with_modifiers f record
    .ok (.str v, st, [])
  | .concat [], _, st => .ok (.str "", st, [])
  | .concat (p :: rest), record, st => do
    let (v, st', out1) ← evalT p record st
    let (vrest, st'', out2) ← evalT (.concat rest) record st'
    .ok (.str ((asStr v).getD "" ++ (asStr vrest).getD ""), st'', out1 ++ out2)
  | .rawRecord, record, st => .ok (.obj record, st, [])
  | .serial, _, st =>
    .ok (.str (Nat.repr st.serial_counter),
      { st with serial_counter := (st.serial_counter + 1) % 2 ^ 64 },
      [Nat.repr st.serial_counter])
  | .var _, _, _ => .error unhandledMsg

/-- One whole run, abstracted as the sequence of top-level expression
evaluations it performs (across records and assignments, in order), threading
the evaluator state and collecting every serial output. -/
def runTrace : List (Expression × Record) → EvaluatorState →
    Except String (EvaluatorState × List String)
  | [], st => .ok (st, [])
  | (e, r) :: rest, st => do
    let (_, st', out1) ← evalT e r st
    let (st'', out2) ← runTrace rest st'
    .ok (st'', out1 ++ out2)

/-- The consecutive-counter trace property under the wrapping usize
increment: the outputs are the decimal forms of c, then of the successive
counters obtained by incrementing modulo 2 to the 64. -/
def consecutiveFrom : Nat → List String → Prop
  | _, [] => True
  | c, x :: rest => x = Nat.repr c ∧ consecutiveFrom ((c + 1) % 2 ^ 64) rest

/-! ## lexer.rs -/

/-- Embedding of the lexer Token type.  Its keyword constructors are exactly
input, output, transform and print: there is no dedicated token for the words
let or const (claim C10). -/
inductive Token where
  | input : Token
  | output : Token
  | transform : Token
  | print : Token
  | stringLiteral : String → Token
  | identifier : String → Token
  | field : String → Token
  | number : Nat → Token
  | plus : Token
  | equal : Token
  | semicolon : Token
  | lbrace : Token
  | rbrace : Token
  | dot : Token
  | lparen : Token
  | rparen : Token
  | comment : String → Token
  | unknown : Char → Token
  | eof : Token
deriving DecidableEq, Repr

/-- The character class the lexer reads maximal runs of, for identifiers and
field names: alphanumeric or underscore.  The Rust code uses the Unicode
is_alphanumeric; the embedding uses the ASCII class, which agrees on every
input the claims mention. -/
def isWordChar (c : Char) : Bool :=
  c.isAlphanum || c = '_'

/-- Decimal value of an all-digit character run. -/
def wordToNat (cs : List Char) : Nat :=
  cs.foldl (fun acc c => acc * 10 + (c.toNat - 48)) 0

/-- Classification step of read_identifier_or_number, applied to a collected
maximal word run: the four keywords, else an unsigned integer if the text
parses as one (usize parsing: non-empty, all decimal digits, below the 64-bit
bound, otherwise the parse fails and the run stays an identifier), else a
generic identifier. -/
def readWordToken (value : String) : Token :=
  if value = "input" then .input
  else if value = "output" then .output
  else if value = "transform" then .transform
  else if value = "print" then .print
  else if value.data ≠ [] ∧ value.data.all Char.isDigit ∧ wordToNat value.data < 2 ^ 64 then
    .number (wordToNat value.data)
  else .identifier value

/-- Reader for a string literal body: consumes up to and including the closing
quote; an unterminated literal consumes to end of input. -/
def readStringLit : List Char → List Char × List Char
  | [] => ([], [])
  | c :: rest =>
    if c = '"' then ([], rest)
    else
      let p := readStringLit rest
      (c :: p.1, p.2)

/-- Reader for a block comment body: consumes up to and including the closing
star slash pair; an unterminated comment consumes to end of input. -/
def readBlockComment : List Char → List Char × List Char
  | [] => ([], [])
  | [c] => ([c], [])
  | c :: d :: rest =>
    if c = '*' ∧ d = '/' then ([], rest)
    else
      let p := readBlockComment (d :: rest)
      (c :: p.1, p.2)

theorem readStringLit_length_le (cs : List Char) :
    (readStringLit cs).2.length ≤ cs.length := by
  induction cs with
  | nil => simp [readStringLit]
  | cons c rest ih =>
    simp only [readStringLit]
    split
    · simp
    · simpa using Nat.le_succ_of_le ih

theorem readBlockComment_length_le (cs : List Char) :
    (readBlockComment cs).2.length ≤ cs.length := by
  induction cs using readBlockComment.induct with
  | case1 => simp [readBlockComment]
  | case2 c => simp [readBlockComment]
  | case3 c d rest h =>
    simp [readBlockComment, if_pos h]
    omega
  | case4 c d rest h ih =>
    simp only [readBlockComment, if_neg h]
    simpa using Nat.le_succ_of_le ih

/-- Embedding of Lexer::tokenize from lexer.rs, fused with next_token: scans
left to right, skipping whitespace, emitting comment tokens for both comment
forms, reading string literals, field references and word runs, mapping the
single-character operators, and an unknown token for anything else.  The Rust
whitespace and alphanumeric classes are Unicode; the embedding uses the ASCII
classes, which agree on all inputs the claims involve. -/
def tokenize : List Char → List Token
  | [] => []
  | '/' :: '/' :: rest =>
    .comment (rest.takeWhile (fun c => c ≠ '\n')).asString.trim ::
      tokenize (rest.dropWhile (fun c => c ≠ '\n'))
  | '/' :: '*' :: rest =>
    .comment (readBlockComment rest).1.asString.trim :: tokenize (readBlockComment rest).2
  | '"' :: rest =>
    .stringLiteral (readStringLit rest).1.asString :: tokenize (readStringLit rest).2
  | '@' :: rest =>
    .field (rest.takeWhile isWordChar).asString :: tokenize (rest.dropWhile isWordChar)
  | '+' :: rest => .plus :: tokenize rest
  | '=' :: rest => .equal :: tokenize rest
  | ';' :: rest => .semicolon :: tokenize rest
  | '\x7b' :: rest => .lbrace :: tokenize rest
  | '\x7d' :: rest => .rbrace :: tokenize rest
  | '.' :: rest => .dot :: tokenize rest
  | '(' :: rest => .lparen :: tokenize rest
  | ')' :: rest => .rparen :: tokenize rest
  | c :: rest =>
    if c.isWhitespace then tokenize rest
    else if c.isAlphanum then
      readWordToken (c :: rest.takeWhile isWordChar).asString ::
        tokenize (rest.dropWhile isWordChar)
    else .unknown c :: tokenize rest
termination_by cs => cs.length
decreasing_by
  all_goals simp_wf
  all_goals try exact Nat.lt_succ_of_le (Nat.le_succ_of_le (List.dropWhile_sublist _).length_le)
  all_goals try exact Nat.lt_succ_of_le (Nat.le_succ_of_le (readBlockComment_length_le rest))
  all_goals try exact Nat.lt_succ_of_le (readStringLit_length_le rest)
  all_goals try exact Nat.lt_succ_of_le (List.dropWhile_sublist _).length_le

/-! ## Token debug formatting (the parser error messages interpolate tokens
with the Rust Debug format) -/

/-- An apostrophe, built from its code point so it never appears literally. -/
def squote : String := String.singleton (Char.ofNat 39)

/-- Debug escaping of one character inside a Rust string Debug rendering; the
embedding covers the escapes the grammar can produce. -/
def dbgStrChar (c : Char) : String :=
  if c = '"' then "\\\""
  else if c = '\\' then "\\\\"
  else if c = '\n' then "\\n"
  else if c = '\r' then "\\r"
  else if c = '\t' then "\\t"
  else String.singleton c

/-- Rust Debug rendering of a string value. -/
def dbgStr (s : String) : String :=
  "\"" ++ String.join (s.data.map dbgStrChar) ++ "\""

/-- Rust Debug rendering of a Token value. -/
def debugToken : Token → String
  | .input => "Input"
  | .output => "Output"
  | .transform => "Transform"
  | .print => "Print"
  | .stringLiteral s => "StringLiteral(" ++ dbgStr s ++ ")"
  | .identifier s => "Identifier(" ++ dbgStr s ++ ")"
  | .field s => "Field(" ++ dbgStr s ++ ")"
  | .number n => "Number(" ++ Nat.repr n ++ ")"
  | .plus => "Plus"
  | .equal => "Equal"
  | .semicolon => "Semicolon"
  | .lbrace => "LBrace"
  | .rbrace => "RBrace"
  | .dot => "Dot"
  | .lparen => "LParen"
  | .rparen => "RParen"
  | .comment s => "Comment(" ++ dbgStr s ++ ")"
  | .unknown c => "Unknown(" ++ squote ++ String.singleton c ++ squote ++ ")"
  | .eof => "EOF"

/-- Rust Debug rendering of an optional current token (several parser
messages format Option values). -/
def debugOpt : Option Token → String
  | some t => "Some(" ++ debugToken t ++ ")"
  | none => "None"

/-- The expect mismatch message from Parser::expect. -/
def expectMsg (expected : Token) (found : Token) : String :=
  "Expected token " ++ debugToken expected ++ ", but found " ++ debugToken found

/-- The expect end-of-input message from Parser::expect. -/
def eoiMsg : String := "Expected token but found end of input."

/-! ## parser.rs functions

The Rust parser walks a token vector with a position index and one or two
token lookahead; the embedding consumes the remaining token list, so position
plus-k lookahead becomes a nested list pattern, and every function returns the
remaining list alongside its result. -/

/-- The dotted-continuation loop of the Field arm of parse_expression
(parser.rs lines 274 to 287): while the current token is a dot, a following
identifier plus left parenthesis stops the path (a modifier call follows,
nothing consumed), a following identifier without a left parenthesis is
consumed as the next path segment, and anything else stops the path. -/
def parse_path : List Token → List String → List String × List Token
  | Token.dot :: Token.identifier id :: Token.lparen :: rest, path =>
    (path, Token.dot :: Token.identifier id :: Token.lparen :: rest)
  | Token.dot :: Token.identifier id :: rest, path => parse_path rest (path ++ [id])
  | toks, path => (path, toks)

/-- Dispatch of a collected modifier name (case-sensitive exact match in
parse_modifiers): prefix, suffix or default, anything else is none. -/
def modFromName (name : String) (value : String) : Option FieldModifier :=
  if name = "prefix" then some (.prefixMod value)
  else if name = "suffix" then some (.suffixMod value)
  else if name = "default" then some (.defaultMod value)
  else none

/-- Embedding of Parser::parse_modifiers (parser.rs lines 220 to 257).  The
loop runs while the current token is a dot whose two-token lookahead is an
identifier then a left parenthesis; it then consumes dot, identifier and left
parenthesis, breaks (keeping what was collected) if the next token is not a
string literal, raises the expect error if the token after the string
argument is not a right parenthesis, and after a well-formed call either
records the modifier or, for an unrecognized name, breaks keeping what was
collected. -/
def parse_modifiers : List Token → List FieldModifier →
    Except String (List FieldModifier × List Token)
  | Token.dot :: Token.identifier name :: Token.lparen :: rest, acc =>
    match rest with
    | Token.stringLiteral s :: rest2 =>
      match rest2 with
      | Token.rparen :: rest3 =>
        match modFromName name s with
        | some m => parse_modifiers rest3 (acc ++ [m])
        | none => .ok (acc, rest3)
      | t :: _ => .error (expectMsg .rparen t)
      | [] => .error eoiMsg
    | _ => .ok (acc, rest)
  | toks, acc => .ok (acc, toks)

/-- The Field-arm result shape: a plain field path when no modifiers were
collected, a field with modifiers otherwise. -/
def mkFieldExpr (path : List String) (ms : List FieldModifier) : Expression :=
  if ms.isEmpty then .fieldPath path else .fieldWithModifiers { path := path, modifiers := ms }

/-- One term of the expression grammar (one arm of the match inside the
parse_expression loop of parser.rs): comments are skipped, a field token
starts the path loop then modifier collection, a string literal is a literal
expression, the identifiers raw and serial must be followed by an empty
parenthesis pair, any other identifier is a Variable expression, and any
other token is an expression-position error. -/
def parse_term : List Token → Except String (Expression × List Token)
  | Token.comment _ :: rest => parse_term rest
  | Token.field first :: rest =>
    match parse_path rest [first] with
    | (path, rest') =>
      match parse_modifiers rest' [] with
      | .ok (ms, rest'') => .ok (mkFieldExpr path ms, rest'')
      | .error e => .error e
  | Token.stringLiteral s :: rest => .ok (.literal s, rest)
  | Token.identifier "raw" :: rest =>
    match rest with
    | Token.lparen :: Token.rparen :: rest2 => .ok (.rawRecord, rest2)
    | Token.lparen :: t :: _ => .error (expectMsg .rparen t)
    | Token.lparen :: [] => .error eoiMsg
    | t :: _ => .error (expectMsg .lparen t)
    | [] => .error eoiMsg
  | Token.identifier "serial" :: rest =>
    match rest with
    | Token.lparen :: Token.rparen :: rest2 => .ok (.serial, rest2)
    | Token.lparen :: t :: _ => .error (expectMsg .rparen t)
    | Token.lparen :: [] => .error eoiMsg
    | t :: _ => .error (expectMsg .lparen t)
    | [] => .error eoiMsg
  | Token.identifier id :: rest => .ok (.var id, rest)
  | t :: _ => .error ("Unexpected token in expression: " ++ debugOpt (some t))
  | [] => .error ("Unexpected token in expression: " ++ debugOpt none)

theorem parse_path_length_le (toks : List Token) (path : List String) :
    (parse_path toks path).2.length ≤ toks.length := by
  induction toks, path using parse_path.induct with
  | case1 id rest path => simp [parse_path]
  | case2 id rest path h ih =>
    have heq : parse_path (Token.dot :: Token.identifier id :: rest) path =
        parse_path rest (path ++ [id]) := by
      cases rest with
      | nil => rfl
      | cons t r =>
        cases t <;> first
          | rfl
          | (exfalso; exact h _ rfl)
    rw [heq]
    exact Nat.le_succ_of_le (Nat.le_succ_of_le ih)
  | case3 toks path h1 h2 =>
    have heq : parse_path toks path = (path, toks) := by
      cases toks with
      | nil => rfl
      | cons t r =>
        cases t <;> try rfl
        cases r with
        | nil => rfl
        | cons t2 r2 =>
          cases t2 <;> first
            | rfl
            | (exfalso; exact h2 _ _ rfl)
    simp [heq]

theorem parse_modifiers_length_le (toks : List Token) (acc : List FieldModifier)
    (ms : List FieldModifier) (rest : List Token)
    (h : parse_modifiers toks acc = .ok (ms, rest)) : rest.length ≤ toks.length := by
  induction toks, acc using parse_modifiers.induct generalizing ms rest with
  | case1 name acc s rest3 m hm ih =>
    simp only [parse_modifiers, hm] at h
    have := ih _ _ h
    simp
    omega
  | case2 name acc s rest3 hm =>
    simp only [parse_modifiers, hm] at h
    cases h
    simp
    omega
  | case3 name acc s t tail hne =>
    simp only [parse_modifiers] at h
    cases h
  | case4 name acc s =>
    simp only [parse_modifiers] at h
    cases h
  | case5 name rest1 acc hnostr =>
    have heq : parse_modifiers (Token.dot :: Token.identifier name :: Token.lparen :: rest1) acc
        = .ok (acc, rest1) := by
      cases rest1 with
      | nil => rfl
      | cons t r =>
        cases t <;> first
          | rfl
          | (exfalso; exact hnostr _ _ rfl)
    rw [heq] at h
    cases h
    simp
    omega
  | case6 toks acc hcatch =>
    have heq : parse_modifiers toks acc = .ok (acc, toks) := by
      cases toks with
      | nil => rfl
      | cons t r =>
        cases t <;> try rfl
        cases r with
        | nil => rfl
        | cons t2 r2 =>
          cases t2 <;> try rfl
          cases r2 with
          | nil => rfl
          | cons t3 r3 =>
            cases t3 <;> first
              | rfl
              | (exfalso; exact hcatch _ _ rfl)
    rw [heq] at h
    cases h
    exact Nat.le_refl _

theorem parse_term_var_eq (id : String) (h1 : id ≠ "raw") (h2 : id ≠ "serial")
    (rest : List Token) :
    parse_term (Token.identifier id :: rest) = .ok (.var id, rest) := by
  simp [parse_term, h1, h2]

theorem parse_term_length_lt (toks : List Token) (e : Expression) (rest : List Token)
    (h : parse_term toks = .ok (e, rest)) : rest.length < toks.length := by
  induction toks using parse_term.induct generalizing e rest with
  | case1 c rest1 ih =>
    simp only [parse_term] at h
    exact Nat.lt_succ_of_lt (ih _ _ h)
  | case2 first rest1 path rest' hpp ms rest'' hpm =>
    simp only [parse_term, hpp, hpm] at h
    cases h
    have h1 : rest''.length ≤ rest'.length := parse_modifiers_length_le _ _ _ _ hpm
    have h2 : rest'.length ≤ rest1.length := by
      have h3 := parse_path_length_le rest1 [first]
      rw [hpp] at h3
      simpa using h3
    simp only [List.length_cons]
    omega
  | case3 first rest1 path rest' hpp msg hpm =>
    simp only [parse_term, hpp, hpm] at h
    cases h
  | case4 s rest1 =>
    simp only [parse_term] at h
    cases h
    simp
  | case5 rest2 =>
    simp only [parse_term] at h
    cases h
    simp only [List.length_cons]
    omega
  | case6 t tail hne =>
    simp only [parse_term] at h
    cases h
  | case7 =>
    simp only [parse_term] at h
    cases h
  | case8 t tail hc1 hc2 hc3 =>
    by_cases ht : t = Token.lparen
    · subst ht
      cases tail with
      | nil => exact absurd rfl (fun hh => hc3 rfl hh)
      | cons t1 tail1 => exact absurd rfl (fun hh => hc2 t1 tail1 rfl hh)
    · have heq : parse_term (Token.identifier "raw" :: t :: tail) =
          .error (expectMsg .lparen t) := by
        cases t <;> first
          | rfl
          | (exfalso; exact ht rfl)
      rw [heq] at h
      cases h
  | case9 =>
    simp only [parse_term] at h
    cases h
  | case10 rest2 =>
    simp only [parse_term] at h
    cases h
    simp only [List.length_cons]
    omega
  | case11 t tail hne =>
    simp only [parse_term] at h
    cases h
  | case12 =>
    simp only [parse_term] at h
    cases h
  | case13 t tail hc1 hc2 hc3 =>
    by_cases ht : t = Token.lparen
    · subst ht
      cases tail with
      | nil => exact absurd rfl (fun hh => hc3 rfl hh)
      | cons t1 tail1 => exact absurd rfl (fun hh => hc2 t1 tail1 rfl hh)
    · have heq : parse_term (Token.identifier "serial" :: t :: tail) =
          .error (expectMsg .lparen t) := by
        cases t <;> first
          | rfl
          | (exfalso; exact ht rfl)
      rw [heq] at h
      cases h
  | case14 =>
    simp only [parse_term] at h
    cases h
  | case15 id rest1 h1 h2 =>
    rw [parse_term_var_eq id (fun hh => h1 hh) (fun hh => h2 hh)] at h
    cases h
    simp
  | case16 t tail n1 n2 n3 n4 n5 n6 =>
    have heq : parse_term (t :: tail) =
        .error ("Unexpected token in expression: " ++ debugOpt (some t)) := by
      cases t <;> first
        | rfl
        | (exfalso
           first
             | exact n1 _ rfl
             | exact n2 _ rfl
             | exact n3 _ rfl
             | exact n6 _ rfl)
    rw [heq] at h
    cases h
  | case17 =>
    simp only [parse_term] at h
    cases h

/-- The term-accumulating loop of Parser::parse_expression: parse one term,
then continue after a plus (or after a stray comment, a quirk of the Rust
loop, which keeps collecting terms in that case too), otherwise stop. -/
def parse_expr_loop (toks : List Token) (parts : List Expression) :
    Except String (List Expression × List Token) :=
  match h : parse_term toks with
  | .error e => .error e
  | .ok (e, rest) =>
    match rest with
    | Token.plus :: r => parse_expr_loop r (parts ++ [e])
    | Token.comment _ :: r => parse_expr_loop r (parts ++ [e])
    | _ => .ok (parts ++ [e], rest)
termination_by toks.length
decreasing_by
  all_goals
    have hlt := parse_term_length_lt toks _ _ h
    simp only [List.length_cons] at hlt ⊢
    omega

/-- Embedding of Parser::parse_expression: the collected parts, unwrapped when
there is exactly one, wrapped in Concat otherwise. -/
def parse_expression (toks : List Token) : Except String (Expression × List Token) :=
  match parse_expr_loop toks [] with
  | .error e => .error e
  | .ok ([e], rest) => .ok (e, rest)
  | .ok (parts, rest) => .ok (.concat parts, rest)

theorem parse_expr_loop_eq (toks : List Token) (parts : List Expression) :
    parse_expr_loop toks parts =
      match parse_term toks with
      | .error e => .error e
      | .ok (e, rest) =>
        match rest with
        | Token.plus :: r => parse_expr_loop r (parts ++ [e])
        | Token.comment _ :: r => parse_expr_loop r (parts ++ [e])
        | _ => .ok (parts ++ [e], rest) := by
  rw [parse_expr_loop]
  split
  · rename_i heq
    rw [heq]
  · rename_i e1 rest1 heq
    conv_rhs => rw [heq]
    rcases rest1 with _ | ⟨t, r⟩
    · rfl
    · cases t <;> rfl

theorem parse_expr_loop_length_lt (toks : List Token) (parts : List Expression)
    (res : List Expression) (rest : List Token)
    (h : parse_expr_loop toks parts = .ok (res, rest)) : rest.length < toks.length := by
  induction toks, parts using parse_expr_loop.induct generalizing res rest with
  | case1 toks parts msg hterm =>
    rw [parse_expr_loop_eq, hterm] at h
    cases h
  | case2 toks parts e rest1 r hterm ih =>
    rw [parse_expr_loop_eq, hterm] at h
    have := ih _ _ h
    have hlt := parse_term_length_lt toks _ _ hterm
    simp only [List.length_cons] at hlt
    omega
  | case3 toks parts e rest1 c r hterm ih =>
    rw [parse_expr_loop_eq, hterm] at h
    have := ih _ _ h
    have hlt := parse_term_length_lt toks _ _ hterm
    simp only [List.length_cons] at hlt
    omega
  | case4 toks parts e rest1 hterm hdup hplus hcomment =>
    rw [parse_expr_loop_eq, hterm] at h
    rcases rest1 with _ | ⟨t, r⟩
    · cases h
      exact parse_term_length_lt toks _ _ hterm
    · cases t <;> first
        | exact (hplus _ hterm rfl HEq.rfl).elim
        | exact (hcomment _ _ hterm rfl HEq.rfl).elim
        | (cases h; exact parse_term_length_lt toks _ _ hterm)

theorem parse_expression_length_lt (toks : List Token) (e : Expression) (rest : List Token)
    (h : parse_expression toks = .ok (e, rest)) : rest.length < toks.length := by
  unfold parse_expression at h
  revert h
  split
  · intro h; cases h
  · rename_i rest1 heq
    intro h
    cases h
    exact parse_expr_loop_length_lt _ _ _ _ heq
  · rename_i parts rest1 hne heq
    intro h
    cases h
    exact parse_expr_loop_length_lt _ _ _ _ heq

/-- Embedding of Parser::parse_input (after the input keyword token has been
consumed): a string literal then a semicolon. -/
def parse_input : List Token → Except String (Command × List Token)
  | Token.stringLiteral path :: Token.semicolon :: rest => .ok (.input path, rest)
  | Token.stringLiteral _ :: t :: _ => .error (expectMsg .semicolon t)
  | Token.stringLiteral _ :: [] => .error eoiMsg
  | toks =>
    .error ("Expected string literal after " ++ squote ++ "input" ++ squote ++ ", but found "
      ++ debugOpt toks.head?)

/-- Embedding of Parser::parse_output (after the output keyword token). -/
def parse_output : List Token → Except String (Command × List Token)
  | Token.stringLiteral path :: Token.semicolon :: rest => .ok (.output path, rest)
  | Token.stringLiteral _ :: t :: _ => .error (expectMsg .semicolon t)
  | Token.stringLiteral _ :: [] => .error eoiMsg
  | toks =>
    .error ("Expected string literal after " ++ squote ++ "output" ++ squote ++ ", but found "
      ++ debugOpt toks.head?)

/-- Embedding of Parser::parse_print (after the print keyword token): either a
bare semicolon, or the identifier line followed by a number and semicolon. -/
def parse_print : List Token → Except String (Command × List Token)
  | Token.semicolon :: rest => .ok (.print, rest)
  | Token.identifier "line" :: Token.number n :: Token.semicolon :: rest =>
    .ok (.printLine n, rest)
  | Token.identifier "line" :: Token.number _ :: t :: _ => .error (expectMsg .semicolon t)
  | Token.identifier "line" :: Token.number _ :: [] => .error eoiMsg
  | Token.identifier "line" :: rest =>
    .error ("Expected number after " ++ squote ++ "print line" ++ squote ++ ", but found "
      ++ debugOpt rest.head?)
  | toks =>
    .error ("Unexpected token after " ++ squote ++ "print" ++ squote ++ ": "
      ++ debugOpt toks.head?)

/-- One assignment inside a transform block, after its leading identifier:
an equals sign, the assigned expression, and a terminating semicolon. -/
def parse_one_assign (key : String) (rest : List Token) :
    Except String ((String × Expression) × List Token) :=
  match rest with
  | Token.equal :: rest2 =>
    match parse_expression rest2 with
    | .error e => .error e
    | .ok (e, rest3) =>
      match rest3 with
      | Token.semicolon :: rest4 => .ok ((key, e), rest4)
      | t :: _ => .error (expectMsg .semicolon t)
      | [] => .error eoiMsg
  | t :: _ => .error (expectMsg .equal t)
  | [] => .error eoiMsg

theorem parse_one_assign_length_lt (key : String) (rest : List Token)
    (a : String × Expression) (rest4 : List Token)
    (h : parse_one_assign key rest = .ok (a, rest4)) : rest4.length < rest.length := by
  unfold parse_one_assign at h
  split at h
  · split at h
    · cases h
    · rename_i e rest3 hpe
      have hlt := parse_expression_length_lt _ _ _ hpe
      split at h
      · cases h
        simp only [List.length_cons] at hlt ⊢
        omega
      · cases h
      · cases h
  · cases h
  · cases h

/-- The assignment loop of Parser::parse_transform: comments are skipped, a
right brace ends the block, an identifier starts one assignment, anything
else is the transform-block error; reaching the end of input ends the block
successfully, exactly as the Rust while-let loop does. -/
def parse_assignments (toks : List Token) (acc : List (String × Expression)) :
    Except String (List (String × Expression) × List Token) :=
  match toks with
  | [] => .ok (acc, [])
  | Token.comment _ :: rest => parse_assignments rest acc
  | Token.rbrace :: rest => .ok (acc, rest)
  | Token.identifier key :: rest =>
    match hpa : parse_one_assign key rest with
    | .error e => .error e
    | .ok (a, rest4) => parse_assignments rest4 (acc ++ [a])
  | t :: _ => .error ("Unexpected token inside transform block: " ++ debugToken t)
termination_by toks.length
decreasing_by
  · simp only [List.length_cons]
    omega
  · have hlt := parse_one_assign_length_lt _ _ _ _ hpa
    simp only [List.length_cons]
    omega

theorem parse_assignments_nil (acc : List (String × Expression)) :
    parse_assignments [] acc = .ok (acc, []) := by
  rw [parse_assignments.eq_def]

theorem parse_assignments_comment (c : String) (rest : List Token)
    (acc : List (String × Expression)) :
    parse_assignments (Token.comment c :: rest) acc = parse_assignments rest acc := by
  rw [parse_assignments.eq_def]

theorem parse_assignments_rbrace (rest : List Token) (acc : List (String × Expression)) :
    parse_assignments (Token.rbrace :: rest) acc = .ok (acc, rest) := by
  rw [parse_assignments.eq_def]

theorem parse_assignments_assign (key : String) (rest : List Token)
    (acc : List (String × Expression)) :
    parse_assignments (Token.identifier key :: rest) acc =
      match parse_one_assign key rest with
      | .error e => .error e
      | .ok (a, rest4) => parse_assignments rest4 (acc ++ [a]) := by
  rw [parse_assignments.eq_def]
  show (match hpa : parse_one_assign key rest with
    | Except.error e =>
      (Except.error e : Except String (List (String × Expression) × List Token))
    | Except.ok (a, rest4) => parse_assignments rest4 (acc ++ [a])) = _
  split
  · rename_i heq
    rw [heq]
  · rename_i a rest4 heq
    conv_rhs => rw [heq]

theorem parse_assignments_other (t : Token) (rest : List Token)
    (acc : List (String × Expression))
    (h1 : ∀ c, t ≠ Token.comment c) (h2 : t ≠ Token.rbrace)
    (h3 : ∀ i, t ≠ Token.identifier i) :
    parse_assignments (t :: rest) acc =
      .error ("Unexpected token inside transform block: " ++ debugToken t) := by
  rw [parse_assignments.eq_def]
  cases t <;> first
    | rfl
    | exact absurd rfl (h1 _)
    | exact absurd rfl h2
    | exact absurd rfl (h3 _)

/-- Embedding of Parser::parse_transform (after the transform keyword token):
an opening brace then the assignment loop. -/
def parse_transform : List Token → Except String (Command × List Token)
  | Token.lbrace :: rest =>
    match parse_assignments rest [] with
    | .ok (asg, rest') => .ok (.transform asg, rest')
    | .error e => .error e
  | t :: _ => .error (expectMsg .lbrace t)
  | [] => .error eoiMsg

theorem parse_input_length_le (toks : List Token) (c : Command) (rest : List Token)
    (h : parse_input toks = .ok (c, rest)) : rest.length ≤ toks.length := by
  unfold parse_input at h
  split at h <;> cases h <;> simp <;> omega

theorem parse_output_length_le (toks : List Token) (c : Command) (rest : List Token)
    (h : parse_output toks = .ok (c, rest)) : rest.length ≤ toks.length := by
  unfold parse_output at h
  split at h <;> cases h <;> simp <;> omega

theorem parse_print_length_le (toks : List Token) (c : Command) (rest : List Token)
    (h : parse_print toks = .ok (c, rest)) : rest.length ≤ toks.length := by
  unfold parse_print at h
  split at h <;> cases h <;> simp <;> omega


theorem parse_assignments_length_le (toks : List Token) (acc : List (String × Expression))
    (asg : List (String × Expression)) (rest : List Token)
    (h : parse_assignments toks acc = .ok (asg, rest)) : rest.length ≤ toks.length := by
  induction toks, acc using parse_assignments.induct generalizing asg rest with
  | case1 acc =>
    rw [parse_assignments_nil] at h
    cases h
    simp
  | case2 c rest1 acc ih =>
    rw [parse_assignments_comment] at h
    exact Nat.le_succ_of_le (ih _ _ h)
  | case3 rest1 acc =>
    rw [parse_assignments_rbrace] at h
    cases h
    simp
  | case4 key rest1 acc msg hpa =>
    rw [parse_assignments_assign, hpa] at h
    cases h
  | case5 key rest1 acc a rest4 hpa ih =>
    rw [parse_assignments_assign, hpa] at h
    have h1 := ih _ _ h
    have h2 := parse_one_assign_length_lt _ _ _ _ hpa
    simp only [List.length_cons]
    omega
  | case6 acc t rest1 n1 n2 n3 =>
    rw [parse_assignments_other t rest1 acc
      (fun c hh => n1 c hh) (fun hh => n2 hh) (fun i hh => n3 i hh)] at h
    cases h

theorem parse_transform_length_le (toks : List Token) (c : Command) (rest : List Token)
    (h : parse_transform toks = .ok (c, rest)) : rest.length ≤ toks.length := by
  unfold parse_transform at h
  split at h
  · rename_i rest1
    split at h
    · rename_i asg rest2 hpa
      cases h
      have := parse_assignments_length_le _ _ _ _ hpa
      simp only [List.length_cons]
      omega
    · cases h
  · cases h
  · cases h

/-- Embedding of Parser::parse (parser.rs lines 80 to 100): the command loop.
Comments are skipped; the four keyword tokens dispatch to their sub-parsers;
any other token is the command-position error.  The Rust match also names
arms Token::Let and Token::Const, but the lexer Token type declares no such
variants, so those arms correspond to nothing here: no token can reach them,
and the loop as embedded covers every Token constructor. -/
def parse_commands (toks : List Token) : Except String (List Command) :=
  match toks with
  | [] => .ok []
  | Token.comment _ :: rest => parse_commands rest
  | Token.input :: rest =>
    match hpi : parse_input rest with
    | .error e => .error e
    | .ok (c, rest') =>
      match parse_commands rest' with
      | .error e => .error e
      | .ok cs => .ok (c :: cs)
  | Token.output :: rest =>
    match hpo : parse_output rest with
    | .error e => .error e
    | .ok (c, rest') =>
      match parse_commands rest' with
      | .error e => .error e
      | .ok cs => .ok (c :: cs)
  | Token.print :: rest =>
    match hpp : parse_print rest with
    | .error e => .error e
    | .ok (c, rest') =>
      match parse_commands rest' with
      | .error e => .error e
      | .ok cs => .ok (c :: cs)
  | Token.transform :: rest =>
    match hpt : parse_transform rest with
    | .error e => .error e
    | .ok (c, rest') =>
      match parse_commands rest' with
      | .error e => .error e
      | .ok cs => .ok (c :: cs)
  | t :: _ => .error ("Unexpected token in command position: " ++ debugToken t)
termination_by toks.length
decreasing_by
  · simp only [List.length_cons]
    omega
  · have := parse_input_length_le _ _ _ hpi
    simp only [List.length_cons]
    omega
  · have := parse_output_length_le _ _ _ hpo
    simp only [List.length_cons]
    omega
  · have := parse_print_length_le _ _ _ hpp
    simp only [List.length_cons]
    omega
  · have := parse_transform_length_le _ _ _ hpt
    simp only [List.length_cons]
    omega

/-- Embedding of the whole parser entry point. -/
def parse (toks : List Token) : Except String (List Command) :=
  parse_commands toks

/-! ## interpreter.rs: the Transform arm of Interpreter::run and the output
selection step

The Transform arm clears the previous transform output, then builds one new
record per input record by evaluating each assignment against that record and
inserting the result under the assignment key, in assignment order.

Note on the evaluation call: interpreter.rs line 71 still writes the call as
evaluate_expression(expr, original) and wraps the result in Value::String,
which does not typecheck against the current evaluator signature in
evaluator.rs (three parameters, returning a Result of Value); the model uses
the actual evaluator interface, threading the run-wide state and inserting
the evaluated value.  Claim C6 records the discrepancy. -/

/-- IndexMap::insert on an ordered record: replaces the value in place when
the key is present, appends a new entry otherwise. -/
def insertIdx (m : Record) (k : String) (v : JValue) : Record :=
  if m.any (fun kv => kv.1 = k) then
    m.map (fun kv => if kv.1 = k then (k, v) else kv)
  else m ++ [(k, v)]

/-- The inner assignment loop of the Transform arm: build one output record
from one input record, evaluating each assignment in order. -/
def build_record (asg : List (String × Expression)) (orig : Record)
    (st : EvaluatorState) (acc : Record) : Except String (Record × EvaluatorState) :=
  match asg with
  | [] => .ok (acc, st)
  | (k, e) :: rest => do
    let (v, st') ← evaluate_expression e orig st
    build_record rest orig st' (insertIdx acc k v)

/-- The outer record loop of the Transform arm: one output record per input
record, in input order, threading the evaluator state. -/
def transform_records (asg : List (String × Expression)) (data : List Record)
    (st : EvaluatorState) : Except String (List Record × EvaluatorState) :=
  match data with
  | [] => .ok ([], st)
  | r :: rest => do
    let (rec, st') ← build_record asg r st []
    let (out, st'') ← transform_records asg rest st'
    .ok (rec :: out, st'')

/-- A sequence of Transform commands over one loaded input collection: each
command recomputes the transformed collection from the same input (the Rust
loop clears transformed_data and rebuilds it), so each run replaces the
previous output wholesale. -/
def run_transforms (ts : List (List (String × Expression))) (data : List Record)
    (st : EvaluatorState) (cur : List Record) :
    Except String (List Record × EvaluatorState) :=
  match ts with
  | [] => .ok (cur, st)
  | t :: rest => do
    let (out, st') ← transform_records t data st
    run_transforms rest data st' out

/-- The output selection step at the end of Interpreter::run: the transformed
collection when it is non-empty, the loaded input collection otherwise. -/
def select_output (transformed jsonl : List Record) : List Record :=
  if transformed.isEmpty then jsonl else transformed

/-! ## Specification-side decoders for claim C7

singlePass5 is the decoder the claim describes: one left-to-right pass
replacing all five escape sequences.  collapseBS and pass4 describe what the
code actually computes (proved below): first one pass collapsing double
backslashes, then one pass for the remaining four escapes. -/

/-- The decode the claim describes: a single left-to-right pass over the text
replacing each of the five two-character escape sequences. -/
def singlePass5 : List Char → List Char
  | [] => []
  | [c] => [c]
  | a :: b :: rest =>
    if a = '\\' ∧ b = '\\' then '\\' :: singlePass5 rest
    else if a = '\\' ∧ b = 'n' then '\n' :: singlePass5 rest
    else if a = '\\' ∧ b = 'r' then '\r' :: singlePass5 rest
    else if a = '\\' ∧ b = 't' then '\t' :: singlePass5 rest
    else if a = '\\' ∧ b = '"' then '"' :: singlePass5 rest
    else a :: singlePass5 (b :: rest)

/-- First phase of the amended description: one left-to-right pass collapsing
each double backslash to a single backslash. -/
def collapseBS : List Char → List Char
  | [] => []
  | [c] => [c]
  | a :: b :: rest =>
    if a = '\\' ∧ b = '\\' then '\\' :: collapseBS rest
    else a :: collapseBS (b :: rest)

/-- Second phase of the amended description: one left-to-right pass replacing
the four escapes for newline, carriage return, tab and quote. -/
def pass4 : List Char → List Char
  | [] => []
  | [c] => [c]
  | a :: b :: rest =>
    if a = '\\' ∧ b = 'n' then '\n' :: pass4 rest
    else if a = '\\' ∧ b = 'r' then '\r' :: pass4 rest
    else if a = '\\' ∧ b = 't' then '\t' :: pass4 rest
    else if a = '\\' ∧ b = '"' then '"' :: pass4 rest
    else a :: pass4 (b :: rest)

theorem collapseBS_eq_replace2 (cs : List Char) :
    collapseBS cs = replace2 '\\' '\\' ['\\'] cs := by
  induction cs using collapseBS.induct with
  | case1 => rfl
  | case2 c => rfl
  | case3 a b rest h ih => simp [collapseBS, replace2, h, ih]
  | case4 a b rest h ih => simp [collapseBS, replace2, h, ih]

theorem replace2_cons_ne (a b x : Char) (r t : List Char) (h : x ≠ a) :
    replace2 a b r (x :: t) = x :: replace2 a b r t := by
  cases t with
  | nil => rfl
  | cons y t2 => simp [replace2, h]

theorem replace2_cons2_ne (a b x y : Char) (r t : List Char) (h : ¬(x = a ∧ y = b)) :
    replace2 a b r (x :: y :: t) = x :: replace2 a b r (y :: t) := by
  simp [replace2, h]

theorem replace2_bs_shape (b rc : Char) (t : List Char) :
    ∃ hd tl, replace2 '\\' b [rc] ('\\' :: t) = hd :: tl ∧ (hd = '\\' ∨ hd = rc) := by
  cases t with
  | nil => exact ⟨'\\', [], rfl, Or.inl rfl⟩
  | cons y t2 =>
    by_cases hy : y = b
    · subst hy
      exact ⟨rc, replace2 '\\' y [rc] t2, by simp [replace2], Or.inr rfl⟩
    · refine ⟨'\\', replace2 '\\' b [rc] (y :: t2), ?_, Or.inl rfl⟩
      rw [replace2_cons2_ne]
      simp [hy]

theorem chain345_pull (hd : Char) (tl : List Char)
    (h1 : hd ≠ 'r') (h2 : hd ≠ 't') (h3 : hd ≠ '"') :
    replace2 '\\' '"' ['"'] (replace2 '\\' 't' ['\t'] (replace2 '\\' 'r' ['\r']
      ('\\' :: hd :: tl))) =
    '\\' :: replace2 '\\' '"' ['"'] (replace2 '\\' 't' ['\t'] (replace2 '\\' 'r' ['\r']
      (hd :: tl))) := by
  have s3 : replace2 '\\' 'r' ['\r'] ('\\' :: hd :: tl) =
      '\\' :: replace2 '\\' 'r' ['\r'] (hd :: tl) := by
    apply replace2_cons2_ne
    rintro ⟨-, hr⟩
    exact h1 hr
  rw [s3]
  by_cases hbs : hd = '\\'
  · subst hbs
    obtain ⟨hd3, tl3, e3, hs3⟩ := replace2_bs_shape 'r' '\r' tl
    have hd3nt : hd3 ≠ 't' := by
      rcases hs3 with h | h <;> subst h <;> decide
    have s4 : replace2 '\\' 't' ['\t'] ('\\' :: replace2 '\\' 'r' ['\r'] ('\\' :: tl)) =
        '\\' :: replace2 '\\' 't' ['\t'] (replace2 '\\' 'r' ['\r'] ('\\' :: tl)) := by
      rw [e3]
      apply replace2_cons2_ne
      rintro ⟨-, ht⟩
      exact hd3nt ht
    rw [s4]
    have shape4 : ∃ hd4 tl4,
        replace2 '\\' 't' ['\t'] (replace2 '\\' 'r' ['\r'] ('\\' :: tl)) = hd4 :: tl4 ∧
          hd4 ≠ '"' := by
      rw [e3]
      rcases hs3 with h | h
      · subst h
        obtain ⟨hd4, tl4, e4, hs4⟩ := replace2_bs_shape 't' '\t' tl3
        refine ⟨hd4, tl4, e4, ?_⟩
        rcases hs4 with h | h <;> subst h <;> decide
      · subst h
        refine ⟨'\r', _, replace2_cons_ne _ _ _ _ _ (by decide), by decide⟩
    obtain ⟨hd4, tl4, e4, hd4q⟩ := shape4
    rw [e4]
    apply replace2_cons2_ne
    rintro ⟨-, hq⟩
    exact hd4q hq
  · have t3 : replace2 '\\' 'r' ['\r'] (hd :: tl) = hd :: replace2 '\\' 'r' ['\r'] tl :=
      replace2_cons_ne _ _ _ _ _ hbs
    rw [t3]
    have s4 : replace2 '\\' 't' ['\t'] ('\\' :: hd :: replace2 '\\' 'r' ['\r'] tl) =
        '\\' :: replace2 '\\' 't' ['\t'] (hd :: replace2 '\\' 'r' ['\r'] tl) := by
      apply replace2_cons2_ne
      rintro ⟨-, ht⟩
      exact h2 ht
    rw [s4]
    have t4 : replace2 '\\' 't' ['\t'] (hd :: replace2 '\\' 'r' ['\r'] tl) =
        hd :: replace2 '\\' 't' ['\t'] (replace2 '\\' 'r' ['\r'] tl) :=
      replace2_cons_ne _ _ _ _ _ hbs
    rw [t4]
    apply replace2_cons2_ne
    rintro ⟨-, hq⟩
    exact h3 hq

theorem pass4_else (a b : Char) (rest : List Char)
    (c1 : ¬(a = '\\' ∧ b = 'n')) (c2 : ¬(a = '\\' ∧ b = 'r'))
    (c3 : ¬(a = '\\' ∧ b = 't')) (c4 : ¬(a = '\\' ∧ b = '"')) :
    pass4 (a :: b :: rest) = a :: pass4 (b :: rest) := by
  simp [pass4, c1, c2, c3, c4]

/-- The five sequential replacement passes of unescape_string equal the
two-phase decode: collapse double backslashes in one pass, then decode the
remaining four escapes in one pass. -/
theorem chain_eq_pass4 (cs : List Char) :
    replace2 '\\' '"' ['"'] (replace2 '\\' 't' ['\t'] (replace2 '\\' 'r' ['\r']
      (replace2 '\\' 'n' ['\n'] cs))) = pass4 cs := by
  induction cs using pass4.induct with
  | case1 => rfl
  | case2 c => rfl
  | case3 c d rest hcd ih =>
    obtain ⟨hc, hd⟩ := hcd
    subst hc
    subst hd
    have s2 : replace2 '\\' 'n' ['\n'] ('\\' :: 'n' :: rest) =
        '\n' :: replace2 '\\' 'n' ['\n'] rest := by simp [replace2]
    rw [s2, replace2_cons_ne _ _ _ _ _ (by decide), replace2_cons_ne _ _ _ _ _ (by decide),
      replace2_cons_ne _ _ _ _ _ (by decide), ih]
    simp [pass4]
  | case4 c d rest n1 hcd ih =>
    obtain ⟨hc, hd⟩ := hcd
    subst hc
    subst hd
    have s2 : replace2 '\\' 'n' ['\n'] ('\\' :: 'r' :: rest) =
        '\\' :: 'r' :: replace2 '\\' 'n' ['\n'] rest := by
      rw [replace2_cons2_ne _ _ _ _ _ _ (by decide),
        replace2_cons_ne _ _ _ _ _ (by decide)]
    have s3 : replace2 '\\' 'r' ['\r'] ('\\' :: 'r' :: replace2 '\\' 'n' ['\n'] rest) =
        '\r' :: replace2 '\\' 'r' ['\r'] (replace2 '\\' 'n' ['\n'] rest) := by
      simp [replace2]
    rw [s2, s3, replace2_cons_ne _ _ _ _ _ (by decide),
      replace2_cons_ne _ _ _ _ _ (by decide), ih]
    simp [pass4]
  | case5 c d rest n1 n2 hcd ih =>
    obtain ⟨hc, hd⟩ := hcd
    subst hc
    subst hd
    have s2 : replace2 '\\' 'n' ['\n'] ('\\' :: 't' :: rest) =
        '\\' :: 't' :: replace2 '\\' 'n' ['\n'] rest := by
      rw [replace2_cons2_ne _ _ _ _ _ _ (by decide),
        replace2_cons_ne _ _ _ _ _ (by decide)]
    have s3 : replace2 '\\' 'r' ['\r'] ('\\' :: 't' :: replace2 '\\' 'n' ['\n'] rest) =
        '\\' :: 't' :: replace2 '\\' 'r' ['\r'] (replace2 '\\' 'n' ['\n'] rest) := by
      rw [replace2_cons2_ne _ _ _ _ _ _ (by decide),
        replace2_cons_ne _ _ _ _ _ (by decide)]
    have s4 : replace2 '\\' 't' ['\t']
        ('\\' :: 't' :: replace2 '\\' 'r' ['\r'] (replace2 '\\' 'n' ['\n'] rest)) =
        '\t' :: replace2 '\\' 't' ['\t']
          (replace2 '\\' 'r' ['\r'] (replace2 '\\' 'n' ['\n'] rest)) := by
      simp [replace2]
    rw [s2, s3, s4, replace2_cons_ne _ _ _ _ _ (by decide), ih]
    simp [pass4]
  | case6 c d rest n1 n2 n3 hcd ih =>
    obtain ⟨hc, hd⟩ := hcd
    subst hc
    subst hd
    have s2 : replace2 '\\' 'n' ['\n'] ('\\' :: '"' :: rest) =
        '\\' :: '"' :: replace2 '\\' 'n' ['\n'] rest := by
      rw [replace2_cons2_ne _ _ _ _ _ _ (by decide),
        replace2_cons_ne _ _ _ _ _ (by decide)]
    have s3 : replace2 '\\' 'r' ['\r'] ('\\' :: '"' :: replace2 '\\' 'n' ['\n'] rest) =
        '\\' :: '"' :: replace2 '\\' 'r' ['\r'] (replace2 '\\' 'n' ['\n'] rest) := by
      rw [replace2_cons2_ne _ _ _ _ _ _ (by decide),
        replace2_cons_ne _ _ _ _ _ (by decide)]
    have s4 : replace2 '\\' 't' ['\t']
        ('\\' :: '"' :: replace2 '\\' 'r' ['\r'] (replace2 '\\' 'n' ['\n'] rest)) =
        '\\' :: '"' :: replace2 '\\' 't' ['\t']
          (replace2 '\\' 'r' ['\r'] (replace2 '\\' 'n' ['\n'] rest)) := by
      rw [replace2_cons2_ne _ _ _ _ _ _ (by decide),
        replace2_cons_ne _ _ _ _ _ (by decide)]
    have s5 : replace2 '\\' '"' ['"']
        ('\\' :: '"' :: replace2 '\\' 't' ['\t']
          (replace2 '\\' 'r' ['\r'] (replace2 '\\' 'n' ['\n'] rest))) =
        '"' :: replace2 '\\' '"' ['"'] (replace2 '\\' 't' ['\t']
          (replace2 '\\' 'r' ['\r'] (replace2 '\\' 'n' ['\n'] rest))) := by
      simp [replace2]
    rw [s2, s3, s4, s5, ih]
    simp [pass4]
  | case7 c d rest n1 n2 n3 n4 ih =>
    rw [pass4_else c d rest n1 n2 n3 n4]
    by_cases ha : c = '\\'
    · subst ha
      have hdn : d ≠ 'n' := fun hh => n1 ⟨rfl, hh⟩
      have hdr : d ≠ 'r' := fun hh => n2 ⟨rfl, hh⟩
      have hdt : d ≠ 't' := fun hh => n3 ⟨rfl, hh⟩
      have hdq : d ≠ '"' := fun hh => n4 ⟨rfl, hh⟩
      have s2 : replace2 '\\' 'n' ['\n'] ('\\' :: d :: rest) =
          '\\' :: replace2 '\\' 'n' ['\n'] (d :: rest) := by
        apply replace2_cons2_ne
        rintro ⟨-, hh⟩
        exact hdn hh
      rw [s2]
      by_cases hb : d = '\\'
      · subst hb
        obtain ⟨hd2, tl2, e2, hs2⟩ := replace2_bs_shape 'n' '\n' rest
        rw [e2]
        have p1 : hd2 ≠ 'r' := by rcases hs2 with h | h <;> subst h <;> decide
        have p2 : hd2 ≠ 't' := by rcases hs2 with h | h <;> subst h <;> decide
        have p3 : hd2 ≠ '"' := by rcases hs2 with h | h <;> subst h <;> decide
        rw [chain345_pull hd2 tl2 p1 p2 p3, ← e2, ih]
      · have s2b : replace2 '\\' 'n' ['\n'] (d :: rest) =
            d :: replace2 '\\' 'n' ['\n'] rest := replace2_cons_ne _ _ _ _ _ hb
        rw [s2b, chain345_pull d _ hdr hdt hdq, ← s2b, ih]
    · have s2 : replace2 '\\' 'n' ['\n'] (c :: d :: rest) =
          c :: replace2 '\\' 'n' ['\n'] (d :: rest) := by
        apply replace2_cons2_ne
        rintro ⟨hh, -⟩
        exact ha hh
      rw [s2, replace2_cons_ne _ _ _ _ _ ha, replace2_cons_ne _ _ _ _ _ ha,
        replace2_cons_ne _ _ _ _ _ ha, ih]

theorem evalT_agrees (e : Expression) (r : Record) (st : EvaluatorState) :
    evaluate_expression e r st = (evalT e r st).map (fun p => (p.1, p.2.1)) := by
  induction e, r, st using evalT.induct with
  | case1 s x st => simp [evaluate_expression, evalT, Except.map]
  | case2 path record st => simp [evaluate_expression, evalT, Except.map]
  | case3 f record st =>
    simp only [evaluate_expression, evalT]
    cases evaluate_field_with_modifiers f record <;>
      simp [Except.map, bind, Except.bind]
  | case4 x st => simp [evaluate_expression, evalT, Except.map]
  | case5 p rest record st ih1 ih2 =>
    simp only [evaluate_expression, evalT]
    rw [ih1]
    cases hp : evalT p record st with
    | error msg => simp [Except.map, bind, Except.bind]
    | ok v =>
      obtain ⟨v, st', out1⟩ := v
      simp only [Except.map, bind, Except.bind]
      rw [ih2 st']
      cases hrest : evalT (.concat rest) record st' with
      | error msg => simp [Except.map]
      | ok w =>
        obtain ⟨w, st'', out2⟩ := w
        simp [Except.map]
  | case6 record st => simp [evaluate_expression, evalT, Except.map]
  | case7 x st => simp [evaluate_expression, evalT, Except.map]
  | case8 a x1 x2 => simp [evaluate_expression, evalT, Except.map]

theorem consecutiveFrom_append (c : Nat) (o1 o2 : List String) (hc : c < 2 ^ 64)
    (h1 : consecutiveFrom c o1) (h2 : consecutiveFrom ((c + o1.length) % 2 ^ 64) o2) :
    consecutiveFrom c (o1 ++ o2) := by
  induction o1 generalizing c with
  | nil =>
    simp only [List.length_nil, Nat.add_zero, Nat.mod_eq_of_lt hc] at h2
    simpa using h2
  | cons x t ih =>
    obtain ⟨hx, ht⟩ := h1
    refine ⟨hx, ih ((c + 1) % 2 ^ 64) (Nat.mod_lt _ (by norm_num)) ht ?_⟩
    have harith : ((c + 1) % 2 ^ 64 + t.length) % 2 ^ 64 = (c + (x :: t).length) % 2 ^ 64 := by
      rw [Nat.mod_add_mod]
      congr 1
      simp only [List.length_cons]
      omega
    rw [harith]
    exact h2

theorem evalT_trace (e : Expression) (r : Record) (st : EvaluatorState) :
    st.serial_counter < 2 ^ 64 →
    ∀ (v : JValue) (st' : EvaluatorState) (outs : List String),
    evalT e r st = .ok (v, st', outs) →
    st'.serial_counter = (st.serial_counter + outs.length) % 2 ^ 64 ∧
      st'.serial_counter < 2 ^ 64 ∧
      consecutiveFrom st.serial_counter outs := by
  induction e, r, st using evalT.induct with
  | case1 s x st =>
    intro hc v st' outs h
    simp only [evalT] at h
    cases h
    exact ⟨by simp only [List.length_nil, Nat.add_zero, Nat.mod_eq_of_lt hc], hc, trivial⟩
  | case2 path record st =>
    intro hc v st' outs h
    simp only [evalT] at h
    cases h
    exact ⟨by simp only [List.length_nil, Nat.add_zero, Nat.mod_eq_of_lt hc], hc, trivial⟩
  | case3 f record st =>
    intro hc v st' outs h
    simp only [evalT, bind, Except.bind] at h
    cases hf : evaluate_field_with_modifiers f record with
    | error msg => simp only [hf] at h; cases h
    | ok s =>
      simp only [hf] at h
      cases h
      exact ⟨by simp only [List.length_nil, Nat.add_zero, Nat.mod_eq_of_lt hc], hc, trivial⟩
  | case4 x st =>
    intro hc v st' outs h
    simp only [evalT] at h
    cases h
    exact ⟨by simp only [List.length_nil, Nat.add_zero, Nat.mod_eq_of_lt hc], hc, trivial⟩
  | case5 p rest record st ih1 ih2 =>
    intro hc v st' outs h
    simp only [evalT, bind, Except.bind] at h
    cases hp : evalT p record st with
    | error msg => simp only [hp] at h; cases h
    | ok w =>
      obtain ⟨w, st1, out1⟩ := w
      simp only [hp] at h
      cases hrest : evalT (.concat rest) record st1 with
      | error msg => simp only [hrest] at h; cases h
      | ok u =>
        obtain ⟨u, st2, out2⟩ := u
        simp only [hrest] at h
        cases h
        obtain ⟨n1, l1, c1⟩ := ih1 hc _ _ _ hp
        obtain ⟨n2, l2, c2⟩ := ih2 st1 l1 _ _ _ hrest
        refine ⟨?_, l2, ?_⟩
        · rw [n2, n1, Nat.mod_add_mod]
          congr 1
          simp only [List.length_append]
          omega
        · refine consecutiveFrom_append _ _ _ hc c1 ?_
          rw [← n1]
          exact c2
  | case6 record st =>
    intro hc v st' outs h
    simp only [evalT] at h
    cases h
    exact ⟨by simp only [List.length_nil, Nat.add_zero, Nat.mod_eq_of_lt hc], hc, trivial⟩
  | case7 x st =>
    intro hc v st' outs h
    simp only [evalT] at h
    cases h
    exact ⟨by simp, Nat.mod_lt _ (by norm_num), rfl, trivial⟩
  | case8 a x1 x2 =>
    intro hc v st' outs h
    simp only [evalT] at h
    cases h

theorem runTrace_trace (evs : List (Expression × Record)) (st st' : EvaluatorState)
    (outs : List String) (hc : st.serial_counter < 2 ^ 64)
    (h : runTrace evs st = .ok (st', outs)) :
    st'.serial_counter = (st.serial_counter + outs.length) % 2 ^ 64 ∧
      st'.serial_counter < 2 ^ 64 ∧
      consecutiveFrom st.serial_counter outs := by
  induction evs generalizing st outs with
  | nil =>
    simp only [runTrace] at h
    cases h
    exact ⟨by simp only [List.length_nil, Nat.add_zero, Nat.mod_eq_of_lt hc], hc, trivial⟩
  | cons er rest ih =>
    obtain ⟨e, r⟩ := er
    simp only [runTrace, bind, Except.bind] at h
    cases he : evalT e r st with
    | error msg => simp only [he] at h; cases h
    | ok w =>
      obtain ⟨v, st1, out1⟩ := w
      simp only [he] at h
      cases hrest : runTrace rest st1 with
      | error msg => simp only [hrest] at h; cases h
      | ok u =>
        obtain ⟨st2, out2⟩ := u
        simp only [hrest] at h
        cases h
        obtain ⟨n1, l1, c1⟩ := evalT_trace _ _ _ hc _ _ _ he
        obtain ⟨n2, l2, c2⟩ := ih st1 _ l1 hrest
        refine ⟨?_, l2, ?_⟩
        · rw [n2, n1, Nat.mod_add_mod]
          congr 1
          simp only [List.length_append]
          omega
        · refine consecutiveFrom_append _ _ _ hc c1 ?_
          rw [← n1]
          exact c2

theorem consecutiveFrom_range (c : Nat) (outs : List String)
    (h : consecutiveFrom c outs) (hb : c + outs.length ≤ 2 ^ 64) :
    outs = (List.range outs.length).map (fun i => Nat.repr (c + i)) := by
  induction outs generalizing c with
  | nil => rfl
  | cons x t ih =>
    obtain ⟨hx, ht⟩ := h
    cases t with
    | nil => simp [hx, List.range_succ]
    | cons y t2 =>
      have hlt : c + 1 < 2 ^ 64 := by
        simp only [List.length_cons] at hb
        omega
      rw [Nat.mod_eq_of_lt hlt] at ht
      have hbt : c + 1 + (y :: t2).length ≤ 2 ^ 64 := by
        simp only [List.length_cons] at hb ⊢
        omega
      have htail := ih (c + 1) ht hbt
      have hlen : (x :: y :: t2).length = t2.length + 1 + 1 := by simp
      rw [hlen, List.range_succ_eq_map, List.map_cons, List.cons.injEq]
      refine ⟨by simpa using hx, ?_⟩
      rw [htail, List.map_map]
      simp only [List.length_cons]
      apply List.map_congr_left
      intro i hi
      simp only [Function.comp_apply]
      congr 1
      omega


/-! ## Supporting definitions and lemmas for the claims -/

/-- An expression avoiding the Variable node (the node set the evaluator
handles); used by the amended claim C4. -/
def noVar : Expression → Bool
  | .literal _ => true
  | .fieldPath _ => true
  | .fieldWithModifiers _ => true
  | .concat [] => true
  | .concat (p :: rest) => noVar p && noVar (.concat rest)
  | .rawRecord => true
  | .serial => true
  | .var _ => false

theorem evaluate_field_with_modifiers_ok (f : FieldWithModifiers) (r : Record) :
    ∃ s, evaluate_field_with_modifiers f r = .ok s := by
  unfold evaluate_field_with_modifiers
  split
  · exact ⟨"", rfl⟩
  · rename_i v heq
    by_cases hv : v = ""
    · exact ⟨"", by simp [hv]⟩
    · exact ⟨applyPS f.modifiers v, by simp [hv]⟩

/-- Whether a modifier is a Default modifier. -/
def isDefaultMod : FieldModifier → Bool
  | .defaultMod _ => true
  | _ => false

theorem applyDefaults_filter (ms : List FieldModifier) (v : Option String) :
    applyDefaults ms v = applyDefaults (ms.filter isDefaultMod) v := by
  induction ms generalizing v with
  | nil => rfl
  | cons m rest ih =>
    cases m with
    | defaultMod d => simp [applyDefaults, List.filter, isDefaultMod] at ih ⊢; exact ih _
    | prefixMod p => simp [applyDefaults, List.filter, isDefaultMod] at ih ⊢; exact ih v
    | suffixMod p => simp [applyDefaults, List.filter, isDefaultMod] at ih ⊢; exact ih v

theorem applyPS_filter (ms : List FieldModifier) (v : String) :
    applyPS ms v = applyPS (ms.filter (fun m => !isDefaultMod m)) v := by
  induction ms generalizing v with
  | nil => rfl
  | cons m rest ih =>
    cases m with
    | defaultMod d => simp [applyPS, List.filter, isDefaultMod] at ih ⊢; exact ih v
    | prefixMod p => simp [applyPS, List.filter, isDefaultMod] at ih ⊢; exact ih _
    | suffixMod p => simp [applyPS, List.filter, isDefaultMod] at ih ⊢; exact ih _

theorem filter_filter_self (p : FieldModifier → Bool) (l : List FieldModifier) :
    (l.filter p).filter p = l.filter p := by
  induction l with
  | nil => rfl
  | cons m rest ih =>
    by_cases hm : p m <;> simp [List.filter, hm, ih]

theorem filter_filter_not (p : FieldModifier → Bool) (l : List FieldModifier) :
    (l.filter (fun m => !p m)).filter p = [] := by
  induction l with
  | nil => rfl
  | cons m rest ih =>
    by_cases hm : p m <;> simp [List.filter, hm, ih]

theorem filter_not_filter (p : FieldModifier → Bool) (l : List FieldModifier) :
    (l.filter p).filter (fun m => !p m) = [] := by
  induction l with
  | nil => rfl
  | cons m rest ih =>
    by_cases hm : p m <;> simp [List.filter, hm, ih]

theorem filter_not_filter_not (p : FieldModifier → Bool) (l : List FieldModifier) :
    (l.filter (fun m => !p m)).filter (fun m => !p m) = l.filter (fun m => !p m) := by
  induction l with
  | nil => rfl
  | cons m rest ih =>
    by_cases hm : p m <;> simp [List.filter, hm, ih]

theorem noVar_evaluate_ok (e : Expression) (r : Record) (st : EvaluatorState) :
    noVar e = true → ∃ p, evaluate_expression e r st = .ok p := by
  induction e, r, st using evalT.induct with
  | case1 s x st =>
    intro h
    exact ⟨(.str (unescape_string s), st), by simp [evaluate_expression]⟩
  | case2 path record st =>
    intro h
    exact ⟨(.str ((get_nested_value_as_string record path).getD ""), st),
      by simp [evaluate_expression]⟩
  | case3 f record st =>
    intro h
    obtain ⟨s, hs⟩ := evaluate_field_with_modifiers_ok f record
    exact ⟨(.str s, st), by simp [evaluate_expression, hs, bind, Except.bind]⟩
  | case4 x st =>
    intro h
    exact ⟨(.str "", st), by simp [evaluate_expression]⟩
  | case5 p rest record st ih1 ih2 =>
    intro h
    simp only [noVar, Bool.and_eq_true] at h
    obtain ⟨⟨v1, st1⟩, h1⟩ := ih1 h.1
    obtain ⟨⟨v2, st2⟩, h2⟩ := ih2 st1 h.2
    refine ⟨(.str ((asStr v1).getD "" ++ (asStr v2).getD ""), st2), ?_⟩
    simp [evaluate_expression, h1, h2, bind, Except.bind]
  | case6 record st =>
    intro h
    exact ⟨(.obj record, st), by simp [evaluate_expression]⟩
  | case7 x st =>
    intro h
    exact ⟨(.str (Nat.repr st.serial_counter),
      { st with serial_counter := (st.serial_counter + 1) % 2 ^ 64 }),
      by simp [evaluate_expression]⟩
  | case8 a x1 x2 =>
    intro h
    simp [noVar] at h

theorem insertIdx_notmem (m : Record) (k : String) (v : JValue)
    (h : ∀ kv ∈ m, kv.1 ≠ k) : insertIdx m k v = m ++ [(k, v)] := by
  unfold insertIdx
  have hcond : ¬(m.any (fun kv => kv.1 = k) = true) := by
    simp only [List.any_eq_true]
    rintro ⟨kv, hmem, hk⟩
    exact h kv hmem (by simpa using hk)
  rw [if_neg hcond]

theorem build_record_keys (asg : List (String × Expression)) (orig : Record)
    (st : EvaluatorState) (acc : Record) (rec : Record) (st' : EvaluatorState)
    (hnd : (acc.map Prod.fst ++ asg.map Prod.fst).Nodup)
    (h : build_record asg orig st acc = .ok (rec, st')) :
    rec.map Prod.fst = acc.map Prod.fst ++ asg.map Prod.fst := by
  induction asg generalizing st acc with
  | nil =>
    simp only [build_record] at h
    cases h
    simp
  | cons ke rest ih =>
    obtain ⟨k, e⟩ := ke
    simp only [build_record, bind, Except.bind] at h
    cases he : evaluate_expression e orig st with
    | error msg => simp only [he] at h; cases h
    | ok p =>
      obtain ⟨v, st1⟩ := p
      simp only [he] at h
      have hnda : (acc.map Prod.fst ++ (k :: rest.map Prod.fst)).Nodup := by
        simpa using hnd
      rw [List.nodup_append] at hnda
      have hknotin : k ∉ acc.map Prod.fst := by
        intro hk
        exact hnda.2.2 hk (by simp)
      have hins : insertIdx acc k v = acc ++ [(k, v)] := by
        apply insertIdx_notmem
        intro kv hmem hkk
        exact hknotin (hkk ▸ List.mem_map_of_mem Prod.fst hmem)
      rw [hins] at h
      have hnd2 : ((acc ++ [(k, v)]).map Prod.fst ++ rest.map Prod.fst).Nodup := by
        simp only [List.map_append, List.map_cons, List.map_nil, List.append_assoc]
        simpa using hnd
      have hrec := ih st1 (acc ++ [(k, v)]) hnd2 h
      rw [hrec]
      simp [List.append_assoc]

theorem transform_records_spec (asg : List (String × Expression)) (data : List Record)
    (st : EvaluatorState) (out : List Record) (st' : EvaluatorState)
    (h : transform_records asg data st = .ok (out, st')) :
    out.length = data.length ∧
      ∀ (i : Nat) (hi : i < data.length) (ho : i < out.length),
        ∃ s1 s2, build_record asg (data.get ⟨i, hi⟩) s1 [] = .ok (out.get ⟨i, ho⟩, s2) := by
  induction data generalizing st out with
  | nil =>
    simp only [transform_records] at h
    cases h
    exact ⟨rfl, fun i hi => by simp at hi⟩
  | cons r rest ih =>
    simp only [transform_records, bind, Except.bind] at h
    cases hb : build_record asg r st [] with
    | error msg => simp only [hb] at h; cases h
    | ok p =>
      obtain ⟨rec, st1⟩ := p
      simp only [hb] at h
      cases ht : transform_records asg rest st1 with
      | error msg => simp only [ht] at h; cases h
      | ok q =>
        obtain ⟨outr, st2⟩ := q
        simp only [ht] at h
        cases h
        obtain ⟨hlen, hidx⟩ := ih st1 _ ht
        refine ⟨by simp [hlen], ?_⟩
        intro i hi ho
        cases i with
        | zero => exact ⟨st, st1, hb⟩
        | succ j =>
          have hj : j < rest.length := by simpa using hi
          have hj2 : j < outr.length := by simpa using ho
          exact hidx j hj hj2

theorem run_transforms_append (ts : List (List (String × Expression)))
    (t : List (String × Expression)) (data : List Record) (st : EvaluatorState)
    (cur : List Record) :
    run_transforms (ts ++ [t]) data st cur =
      Except.bind (run_transforms ts data st cur)
        (fun p => transform_records t data p.2) := by
  induction ts generalizing st cur with
  | nil =>
    simp only [List.nil_append, run_transforms, Except.bind]
    cases htr : transform_records t data st with
    | error msg => rfl
    | ok p =>
      obtain ⟨out, st1⟩ := p
      simp [run_transforms, bind, Except.bind]
  | cons t0 rest ih =>
    simp only [List.cons_append, run_transforms, bind, Except.bind]
    cases htr : transform_records t0 data st with
    | error msg => rfl
    | ok p =>
      obtain ⟨out, st1⟩ := p
      exact ih st1 out

theorem run_transforms_length (ts : List (List (String × Expression)))
    (data : List Record) (st : EvaluatorState) (cur : List Record)
    (out : List Record) (st' : EvaluatorState)
    (hne : ts ≠ [])
    (h : run_transforms ts data st cur = .ok (out, st')) :
    out.length = data.length := by
  induction ts generalizing st cur with
  | nil => exact absurd rfl hne
  | cons t rest ih =>
    simp only [run_transforms, bind, Except.bind] at h
    cases htr : transform_records t data st with
    | error msg => simp only [htr] at h; cases h
    | ok p =>
      obtain ⟨out1, st1⟩ := p
      simp only [htr] at h
      cases hrest : rest with
      | nil =>
        subst hrest
        simp only [run_transforms] at h
        cases h
        exact (transform_records_spec _ _ _ _ _ htr).1
      | cons t2 rest2 =>
        subst hrest
        exact ih st1 out1 (by simp) h

theorem parse_commands_nil : parse_commands [] = .ok [] := by
  rw [parse_commands.eq_def]

theorem parse_commands_comment (c : String) (rest : List Token) :
    parse_commands (Token.comment c :: rest) = parse_commands rest := by
  rw [parse_commands.eq_def]

theorem parse_commands_input (rest : List Token) :
    parse_commands (Token.input :: rest) =
      match parse_input rest with
      | .error e => .error e
      | .ok (c, rest') =>
        match parse_commands rest' with
        | .error e => .error e
        | .ok cs => .ok (c :: cs) := by
  rw [parse_commands.eq_def]
  show (match hpi : parse_input rest with
    | Except.error e => (Except.error e : Except String (List Command))
    | Except.ok (c, rest') =>
      match parse_commands rest' with
      | .error e => .error e
      | .ok cs => .ok (c :: cs)) = _
  split
  · rename_i heq
    rw [heq]
  · rename_i c rest' heq
    conv_rhs => rw [heq]

theorem parse_commands_output (rest : List Token) :
    parse_commands (Token.output :: rest) =
      match parse_output rest with
      | .error e => .error e
      | .ok (c, rest') =>
        match parse_commands rest' with
        | .error e => .error e
        | .ok cs => .ok (c :: cs) := by
  rw [parse_commands.eq_def]
  show (match hpo : parse_output rest with
    | Except.error e => (Except.error e : Except String (List Command))
    | Except.ok (c, rest') =>
      match parse_commands rest' with
      | .error e => .error e
      | .ok cs => .ok (c :: cs)) = _
  split
  · rename_i heq
    rw [heq]
  · rename_i c rest' heq
    conv_rhs => rw [heq]

theorem parse_commands_print (rest : List Token) :
    parse_commands (Token.print :: rest) =
      match parse_print rest with
      | .error e => .error e
      | .ok (c, rest') =>
        match parse_commands rest' with
        | .error e => .error e
        | .ok cs => .ok (c :: cs) := by
  rw [parse_commands.eq_def]
  show (match hpp : parse_print rest with
    | Except.error e => (Except.error e : Except String (List Command))
    | Except.ok (c, rest') =>
      match parse_commands rest' with
      | .error e => .error e
      | .ok cs => .ok (c :: cs)) = _
  split
  · rename_i heq
    rw [heq]
  · rename_i c rest' heq
    conv_rhs => rw [heq]

theorem parse_commands_transform (rest : List Token) :
    parse_commands (Token.transform :: rest) =
      match parse_transform rest with
      | .error e => .error e
      | .ok (c, rest') =>
        match parse_commands rest' with
        | .error e => .error e
        | .ok cs => .ok (c :: cs) := by
  rw [parse_commands.eq_def]
  show (match hpt : parse_transform rest with
    | Except.error e => (Except.error e : Except String (List Command))
    | Except.ok (c, rest') =>
      match parse_commands rest' with
      | .error e => .error e
      | .ok cs => .ok (c :: cs)) = _
  split
  · rename_i heq
    rw [heq]
  · rename_i c rest' heq
    conv_rhs => rw [heq]

theorem parse_commands_other (t : Token) (rest : List Token)
    (h1 : t ≠ Token.input) (h2 : t ≠ Token.output) (h3 : t ≠ Token.print)
    (h4 : t ≠ Token.transform) (h5 : ∀ c, t ≠ Token.comment c) :
    parse_commands (t :: rest) =
      .error ("Unexpected token in command position: " ++ debugToken t) := by
  rw [parse_commands.eq_def]
  cases t <;> first
    | rfl
    | exact absurd rfl h1
    | exact absurd rfl h2
    | exact absurd rfl h3
    | exact absurd rfl h4
    | exact absurd rfl (h5 _)

theorem parse_input_shape (toks : List Token) (c : Command) (r : List Token)
    (h : parse_input toks = .ok (c, r)) : ∃ p, c = Command.input p := by
  unfold parse_input at h
  split at h <;> cases h
  exact ⟨_, rfl⟩

theorem parse_output_shape (toks : List Token) (c : Command) (r : List Token)
    (h : parse_output toks = .ok (c, r)) : ∃ p, c = Command.output p := by
  unfold parse_output at h
  split at h <;> cases h
  exact ⟨_, rfl⟩

theorem parse_print_shape (toks : List Token) (c : Command) (r : List Token)
    (h : parse_print toks = .ok (c, r)) : c = Command.print ∨ ∃ n, c = Command.printLine n := by
  unfold parse_print at h
  split at h <;> cases h
  · exact Or.inl rfl
  · exact Or.inr ⟨_, rfl⟩

theorem parse_transform_shape (toks : List Token) (c : Command) (r : List Token)
    (h : parse_transform toks = .ok (c, r)) : ∃ asg, c = Command.transform asg := by
  unfold parse_transform at h
  split at h
  · split at h <;> cases h
    exact ⟨_, rfl⟩
  · cases h
  · cases h

/-- Commands the Rust parser could only build from the nonexistent Let and
Const tokens are never produced: parse_commands yields no letCmd or constCmd. -/
theorem parse_commands_no_let_const (toks : List Token) (cmds : List Command)
    (h : parse_commands toks = .ok cmds) :
    ∀ c ∈ cmds, (∀ n e, c ≠ Command.letCmd n e) ∧ (∀ n e, c ≠ Command.constCmd n e) := by
  induction toks using parse_commands.induct generalizing cmds with
  | case1 =>
    rw [parse_commands_nil] at h
    cases h
    intro c hc
    simp at hc
  | case2 cm rest ih =>
    rw [parse_commands_comment] at h
    exact ih _ h
  | case3 rest msg hp =>
    rw [parse_commands_input] at h
    simp only [hp] at h
    cases h
  | case4 rest c rest1 hp msg hpc ih =>
    rw [parse_commands_input] at h
    simp only [hp, hpc] at h
    cases h
  | case5 rest c rest1 hp cs hpc ih =>
    rw [parse_commands_input] at h
    simp only [hp, hpc] at h
    cases h
    intro c2 hc2
    rcases List.mem_cons.mp hc2 with hh | hh
    · subst hh
      obtain ⟨p, hs⟩ := parse_input_shape _ _ _ hp
      subst hs
      exact ⟨fun n e => by simp, fun n e => by simp⟩
    · exact ih _ hpc c2 hh
  | case6 rest msg hp =>
    rw [parse_commands_output] at h
    simp only [hp] at h
    cases h
  | case7 rest c rest1 hp msg hpc ih =>
    rw [parse_commands_output] at h
    simp only [hp, hpc] at h
    cases h
  | case8 rest c rest1 hp cs hpc ih =>
    rw [parse_commands_output] at h
    simp only [hp, hpc] at h
    cases h
    intro c2 hc2
    rcases List.mem_cons.mp hc2 with hh | hh
    · subst hh
      obtain ⟨p, hs⟩ := parse_output_shape _ _ _ hp
      subst hs
      exact ⟨fun n e => by simp, fun n e => by simp⟩
    · exact ih _ hpc c2 hh
  | case9 rest msg hp =>
    rw [parse_commands_print] at h
    simp only [hp] at h
    cases h
  | case10 rest c rest1 hp msg hpc ih =>
    rw [parse_commands_print] at h
    simp only [hp, hpc] at h
    cases h
  | case11 rest c rest1 hp cs hpc ih =>
    rw [parse_commands_print] at h
    simp only [hp, hpc] at h
    cases h
    intro c2 hc2
    rcases List.mem_cons.mp hc2 with hh | hh
    · subst hh
      rcases parse_print_shape _ _ _ hp with hs | ⟨m, hs⟩ <;> subst hs <;>
        exact ⟨fun n e => by simp, fun n e => by simp⟩
    · exact ih _ hpc c2 hh
  | case12 rest msg hp =>
    rw [parse_commands_transform] at h
    simp only [hp] at h
    cases h
  | case13 rest c rest1 hp msg hpc ih =>
    rw [parse_commands_transform] at h
    simp only [hp, hpc] at h
    cases h
  | case14 rest c rest1 hp cs hpc ih =>
    rw [parse_commands_transform] at h
    simp only [hp, hpc] at h
    cases h
    intro c2 hc2
    rcases List.mem_cons.mp hc2 with hh | hh
    · subst hh
      obtain ⟨p, hs⟩ := parse_transform_shape _ _ _ hp
      subst hs
      exact ⟨fun n e => by simp, fun n e => by simp⟩
    · exact ih _ hpc c2 hh
  | case15 t tail n1 n2 n3 n4 n5 =>
    rw [parse_commands_other t tail (fun hh => n2 hh) (fun hh => n3 hh) (fun hh => n4 hh)
      (fun hh => n5 hh) (fun cm hh => n1 cm hh)] at h
    cases h

theorem readWordToken_not_kw (w : String) (h1 : w ≠ "input") (h2 : w ≠ "output")
    (h3 : w ≠ "transform") (h4 : w ≠ "print") :
    readWordToken w = Token.identifier w ∨ ∃ n, readWordToken w = Token.number n := by
  unfold readWordToken
  rw [if_neg h1, if_neg h2, if_neg h3, if_neg h4]
  by_cases hb : w.data ≠ [] ∧ w.data.all Char.isDigit ∧ wordToNat w.data < 2 ^ 64
  · rw [if_pos hb]
    exact Or.inr ⟨_, rfl⟩
  · rw [if_neg hb]
    exact Or.inl rfl

theorem readWordToken_kw_iff (w : String) :
    (readWordToken w = Token.input ↔ w = "input")
    ∧ (readWordToken w = Token.output ↔ w = "output")
    ∧ (readWordToken w = Token.transform ↔ w = "transform")
    ∧ (readWordToken w = Token.print ↔ w = "print") := by
  by_cases h1 : w = "input"
  · subst h1
    refine ⟨⟨fun _ => rfl, fun _ => by decide⟩, ?_, ?_, ?_⟩ <;>
      constructor <;> intro hh <;> first | (exfalso; revert hh; decide) | (revert hh; decide)
  · by_cases h2 : w = "output"
    · subst h2
      refine ⟨?_, ⟨fun _ => rfl, fun _ => by decide⟩, ?_, ?_⟩ <;>
        constructor <;> intro hh <;> first | (exfalso; revert hh; decide) | (revert hh; decide)
    · by_cases h3 : w = "transform"
      · subst h3
        refine ⟨?_, ?_, ⟨fun _ => rfl, fun _ => by decide⟩, ?_⟩ <;>
          constructor <;> intro hh <;> first | (exfalso; revert hh; decide) | (revert hh; decide)
      · by_cases h4 : w = "print"
        · subst h4
          refine ⟨?_, ?_, ?_, ⟨fun _ => rfl, fun _ => by decide⟩⟩ <;>
            constructor <;> intro hh <;> first | (exfalso; revert hh; decide) | (revert hh; decide)
        · have hno := readWordToken_not_kw w h1 h2 h3 h4
          refine ⟨?_, ?_, ?_, ?_⟩ <;> constructor <;> intro hh <;>
            first
              | exact absurd hh (by assumption)
              | (rcases hno with hv | ⟨n, hv⟩ <;> rw [hv] at hh <;> cases hh)

theorem tokenize_let (cs : List Char) :
    tokenize ('l' :: 'e' :: 't' :: ' ' :: cs) = Token.identifier "let" :: tokenize cs := by
  rw [tokenize.eq_def]
  split
  all_goals try (rename_i heq; cases heq)
  rw [if_neg (by decide), if_pos (by decide)]
  have htw : List.takeWhile isWordChar ('e' :: 't' :: ' ' :: cs) = ['e', 't'] := by
    simp +decide [List.takeWhile_cons, isWordChar]
  have hdw : List.dropWhile isWordChar ('e' :: 't' :: ' ' :: cs) = ' ' :: cs := by
    simp +decide [List.dropWhile_cons, isWordChar]
  rw [htw, hdw]
  have hword : readWordToken ('l' :: ['e', 't']).asString = Token.identifier "let" := by decide
  rw [hword]
  have hsp : tokenize (' ' :: cs) = tokenize cs := by
    rw [tokenize.eq_def]
    split
    all_goals try (rename_i heq2; cases heq2)
    rw [if_pos (by decide)]
  rw [hsp]

theorem tokenize_const (cs : List Char) :
    tokenize ('c' :: 'o' :: 'n' :: 's' :: 't' :: ' ' :: cs) =
      Token.identifier "const" :: tokenize cs := by
  rw [tokenize.eq_def]
  split
  all_goals try (rename_i heq; cases heq)
  rw [if_neg (by decide), if_pos (by decide)]
  have htw : List.takeWhile isWordChar ('o' :: 'n' :: 's' :: 't' :: ' ' :: cs) =
      ['o', 'n', 's', 't'] := by
    simp +decide [List.takeWhile_cons, isWordChar]
  have hdw : List.dropWhile isWordChar ('o' :: 'n' :: 's' :: 't' :: ' ' :: cs) = ' ' :: cs := by
    simp +decide [List.dropWhile_cons, isWordChar]
  rw [htw, hdw]
  have hword : readWordToken ('c' :: ['o', 'n', 's', 't']).asString =
      Token.identifier "const" := by decide
  rw [hword]
  have hsp : tokenize (' ' :: cs) = tokenize cs := by
    rw [tokenize.eq_def]
    split
    all_goals try (rename_i heq2; cases heq2)
    rw [if_pos (by decide)]
  rw [hsp]

/-! ## Claim theorems -/

/-- Closed form of a run of n consecutive Serial evaluations from counter c:
the outputs are the decimal forms of c, c+1, ... taken modulo 2 to the 64
(the usize wrap), and the final counter is (c + n) modulo 2 to the 64. -/
theorem serialReplicate (n : Nat) (c : Nat) (hc : c < 2 ^ 64) :
    runTrace (List.replicate n (Expression.serial, ([] : Record))) { serial_counter := c } =
      .ok ({ serial_counter := (c + n) % 2 ^ 64 },
        (List.range n).map (fun i => Nat.repr ((c + i) % 2 ^ 64))) := by
  induction n generalizing c with
  | zero =>
    simp only [List.replicate_zero, runTrace, List.range_zero, List.map_nil]
    have h0 : (c + 0) % 2 ^ 64 = c := by omega
    rw [h0]
  | succ m ih =>
    rw [List.replicate_succ]
    simp only [runTrace, evalT, bind, Except.bind]
    simp only [ih ((c + 1) % 2 ^ 64) (Nat.mod_lt _ (by norm_num)), List.singleton_append]
    have hstate : ((c + 1) % 2 ^ 64 + m) % 2 ^ 64 = (c + (m + 1)) % 2 ^ 64 := by
      rw [Nat.mod_add_mod]
      congr 1
      omega
    have houts : Nat.repr c ::
        (List.range m).map (fun i => Nat.repr (((c + 1) % 2 ^ 64 + i) % 2 ^ 64)) =
        (List.range (m + 1)).map (fun i => Nat.repr ((c + i) % 2 ^ 64)) := by
      rw [List.range_succ_eq_map, List.map_cons, List.map_map]
      refine congrArg₂ List.cons ?_ ?_
      · rw [Nat.add_zero, Nat.mod_eq_of_lt hc]
      · apply List.map_congr_left
        intro i hi
        simp only [Function.comp_apply]
        rw [Nat.mod_add_mod]
        congr 2
        omega
    rw [hstate, houts]

/-- C1 (corrected): from a freshly constructed evaluator state the serial
counter starts at 1; each evaluation of a Serial expression returns the
current counter value in decimal text and increments the counter by one
modulo 2 to the 64 (the counter is a usize, which wraps); the instrumented
evaluator projects onto the real one; and over any whole run (any sequence
of top-level evaluations across records and assignments, including inside
Concat, left to right) the final counter is (1 + k) modulo 2 to the 64 for
k serial outputs, and as long as k stays below 2 to the 64 the k outputs
are exactly the decimal forms of 1..k in evaluation order, never reused
and never skipped. Once the counter wraps, values are reused (see the
separate wrap counterexample). -/
theorem serial_counter_claim :
    EvaluatorState.new.serial_counter = 1
    ∧ (∀ (r : Record) (st : EvaluatorState),
        evaluate_expression .serial r st =
          .ok (.str (Nat.repr st.serial_counter),
            { st with serial_counter := (st.serial_counter + 1) % 2 ^ 64 }))
    ∧ (∀ (e : Expression) (r : Record) (st : EvaluatorState),
        evaluate_expression e r st = (evalT e r st).map (fun p => (p.1, p.2.1)))
    ∧ (∀ (evs : List (Expression × Record)) (st' : EvaluatorState) (outs : List String),
        runTrace evs EvaluatorState.new = .ok (st', outs) →
          st'.serial_counter = (1 + outs.length) % 2 ^ 64 ∧
            (outs.length < 2 ^ 64 →
              outs = (List.range outs.length).map (fun i => Nat.repr (1 + i)))) := by
  refine ⟨rfl, ?_, evalT_agrees, ?_⟩
  · intro r st
    simp [evaluate_expression]
  · intro evs st' outs h
    obtain ⟨hn, hl, hcons⟩ := runTrace_trace evs _ _ _ (by decide) h
    refine ⟨by simpa [EvaluatorState.new] using hn, fun hk => ?_⟩
    have hb : EvaluatorState.new.serial_counter + outs.length ≤ 2 ^ 64 := by
      show 1 + outs.length ≤ 2 ^ 64
      omega
    exact consecutiveFrom_range _ _ hcons hb

/-- The original unbounded reading of C1 is false at the wrap: a run of
2 to the 64 serial evaluations from a fresh state succeeds, but its outputs
are not the decimal forms of 1..k (the last output is 0, reusing a wrapped
value) and the final counter is 1, not 1 + k. -/
theorem serial_wrap_counterexample :
    ∃ (evs : List (Expression × Record)) (st' : EvaluatorState) (outs : List String),
      runTrace evs EvaluatorState.new = .ok (st', outs) ∧
      outs ≠ (List.range outs.length).map (fun i => Nat.repr (1 + i)) ∧
      st'.serial_counter ≠ 1 + outs.length := by
  refine ⟨List.replicate (2 ^ 64) (Expression.serial, ([] : Record)), _, _,
    serialReplicate (2 ^ 64) 1 (by norm_num), ?_, ?_⟩
  · intro heq
    have hlen : ((List.range (2 ^ 64)).map
        (fun i => Nat.repr ((1 + i) % 2 ^ 64))).length = 2 ^ 64 := by
      simp
    rw [hlen, List.map_inj_left] at heq
    have h0 := heq (2 ^ 64 - 1) (by rw [List.mem_range]; omega)
    have h1 : (1 + (2 ^ 64 - 1)) % 2 ^ 64 = 0 := by omega
    have h2 : 1 + (2 ^ 64 - 1) = 18446744073709551616 := by omega
    rw [h1, h2] at h0
    exact absurd h0 (by decide)
  · have hlen : ((List.range (2 ^ 64)).map
        (fun i => Nat.repr ((1 + i) % 2 ^ 64))).length = 2 ^ 64 := by
      simp
    rw [hlen]
    show (1 + 2 ^ 64) % 2 ^ 64 ≠ 1 + 2 ^ 64
    omega

/-- Witness for C1 at a concrete run: one serial evaluation followed by a
concatenation containing two more yields the outputs 1, 2, 3, the counter
ends at 4, and the length bound of the trace conjunct is discharged. -/
theorem serial_counter_claim_witness :
    runTrace [(Expression.serial, ([] : Record)),
        (Expression.concat [Expression.serial, Expression.literal "-", Expression.serial], [])]
      EvaluatorState.new = .ok ({ serial_counter := 4 }, ["1", "2", "3"]) ∧
    (["1", "2", "3"] : List String).length < 2 ^ 64 ∧
    ["1", "2", "3"] = (List.range (3 : Nat)).map (fun i => Nat.repr (1 + i)) ∧
    ({ serial_counter := 4 } : EvaluatorState).serial_counter = (1 + 3) % 2 ^ 64 := by
  have h : runTrace [(Expression.serial, ([] : Record)),
      (Expression.concat [Expression.serial, Expression.literal "-", Expression.serial], [])]
      EvaluatorState.new = .ok ({ serial_counter := 4 }, ["1", "2", "3"]) := by
    simp [runTrace, evalT, EvaluatorState.new, bind, Except.bind]
    exact ⟨rfl, rfl, rfl⟩
  have h2 := serial_counter_claim.2.2.2 _ _ _ h
  refine ⟨h, by decide, ?_, ?_⟩
  · simpa using h2.2 (by decide)
  · simpa using h2.1

/-- C2: with a default modifier, a path resolving to no value (missing key or
non-object intermediate) evaluates to the escape-decoded default text; a path
resolving to the empty string does too; a path resolving to a non-empty value
keeps that value (the default never overrides it); and the Default modifier
acts before any Prefix or Suffix regardless of its position in the modifier
list (reordering all Defaults to the front does not change the result). -/
theorem default_modifier_claim :
    (∀ (r : Record) (p : List String) (x : String) (st : EvaluatorState),
        get_nested_value_as_string r p = none →
          evaluate_expression (.fieldWithModifiers ⟨p, [.defaultMod x]⟩) r st =
            .ok (.str (unescape_string x), st))
    ∧ (∀ (r : Record) (p : List String) (x : String) (st : EvaluatorState),
        get_nested_value_as_string r p = some "" →
          evaluate_expression (.fieldWithModifiers ⟨p, [.defaultMod x]⟩) r st =
            .ok (.str (unescape_string x), st))
    ∧ (∀ (r : Record) (p : List String) (x v : String) (st : EvaluatorState),
        get_nested_value_as_string r p = some v → v ≠ "" →
          evaluate_expression (.fieldWithModifiers ⟨p, [.defaultMod x]⟩) r st =
            .ok (.str v, st))
    ∧ (∀ (f : FieldWithModifiers) (r : Record) (st : EvaluatorState),
        evaluate_expression (.fieldWithModifiers f) r st =
          evaluate_expression (.fieldWithModifiers
            ⟨f.path, f.modifiers.filter isDefaultMod ++
              f.modifiers.filter (fun m => !isDefaultMod m)⟩) r st) := by
  refine ⟨?_, ?_, ?_, ?_⟩
  · intro r p x st h
    by_cases hx : unescape_string x = ""
    · simp [evaluate_expression, evaluate_field_with_modifiers, applyDefaults, h, hx,
        bind, Except.bind]
    · simp [evaluate_expression, evaluate_field_with_modifiers, applyDefaults, applyPS,
        h, hx, bind, Except.bind]
  · intro r p x st h
    by_cases hx : unescape_string x = ""
    · simp [evaluate_expression, evaluate_field_with_modifiers, applyDefaults, h, hx,
        bind, Except.bind]
    · simp [evaluate_expression, evaluate_field_with_modifiers, applyDefaults, applyPS,
        h, hx, bind, Except.bind]
  · intro r p x v st h hv
    simp [evaluate_expression, evaluate_field_with_modifiers, applyDefaults, applyPS,
      h, hv, bind, Except.bind]
  · intro f r st
    have hd : applyDefaults (f.modifiers.filter isDefaultMod ++
        f.modifiers.filter (fun m => !isDefaultMod m))
          (get_nested_value_as_string r f.path) =
        applyDefaults f.modifiers (get_nested_value_as_string r f.path) := by
      rw [applyDefaults_filter (f.modifiers.filter isDefaultMod ++
          f.modifiers.filter (fun m => !isDefaultMod m)),
        List.filter_append, filter_filter_self, filter_filter_not, List.append_nil,
        ← applyDefaults_filter]
    have hps : ∀ v, applyPS (f.modifiers.filter isDefaultMod ++
        f.modifiers.filter (fun m => !isDefaultMod m)) v = applyPS f.modifiers v := by
      intro v
      rw [applyPS_filter (f.modifiers.filter isDefaultMod ++
          f.modifiers.filter (fun m => !isDefaultMod m)),
        List.filter_append, filter_not_filter, filter_not_filter_not, List.nil_append,
        ← applyPS_filter]
    simp only [evaluate_expression, evaluate_field_with_modifiers, hd, hps]

/-- Witness for C2 at concrete inputs: a missing path takes the default, and
a non-empty resolved value is kept. -/
theorem default_modifier_claim_witness :
    get_nested_value_as_string [] ["a", "b"] = none
    ∧ evaluate_expression (.fieldWithModifiers ⟨["a", "b"], [.defaultMod "x"]⟩) []
        { serial_counter := 1 } = .ok (.str (unescape_string "x"), { serial_counter := 1 })
    ∧ get_nested_value_as_string [("a", .str "v")] ["a"] = some "v"
    ∧ evaluate_expression (.fieldWithModifiers ⟨["a"], [.defaultMod "x"]⟩)
        [("a", .str "v")] { serial_counter := 1 } =
        .ok (.str "v", { serial_counter := 1 }) :=
  ⟨rfl, default_modifier_claim.1 _ _ _ _ rfl, rfl,
    default_modifier_claim.2.2.1 _ _ _ _ _ rfl (by decide)⟩

/-- C3: when the value left after the Default pass is absent or empty, the
field-with-modifiers expression evaluates to the empty string and no Prefix
or Suffix is applied; in particular prefix and suffix on an empty field value
yield the empty string even with no default present; otherwise every Prefix
and Suffix in the list is applied in the list order, a Prefix prepending and
a Suffix appending its escape-decoded text. -/
theorem empty_value_modifier_claim :
    (∀ (f : FieldWithModifiers) (r : Record) (st : EvaluatorState),
        (applyDefaults f.modifiers (get_nested_value_as_string r f.path) = none ∨
          applyDefaults f.modifiers (get_nested_value_as_string r f.path) = some "") →
          evaluate_expression (.fieldWithModifiers f) r st = .ok (.str "", st))
    ∧ evaluate_expression
        (.fieldWithModifiers ⟨["f"], [.prefixMod "P", .suffixMod "S"]⟩)
        [("f", .str "")] { serial_counter := 1 } = .ok (.str "", { serial_counter := 1 })
    ∧ (∀ (f : FieldWithModifiers) (r : Record) (st : EvaluatorState) (v : String),
        applyDefaults f.modifiers (get_nested_value_as_string r f.path) = some v →
          v ≠ "" →
          evaluate_expression (.fieldWithModifiers f) r st =
            .ok (.str (applyPS f.modifiers v), st))
    ∧ (∀ (t : String) (ms : List FieldModifier) (v : String),
        applyPS (.prefixMod t :: ms) v = applyPS ms (unescape_string t ++ v) ∧
        applyPS (.suffixMod t :: ms) v = applyPS ms (v ++ unescape_string t) ∧
        applyPS (.defaultMod t :: ms) v = applyPS ms v ∧
        applyPS ([] : List FieldModifier) v = v) := by
  refine ⟨?_, ?_, ?_, ?_⟩
  · intro f r st h
    rcases h with h | h <;>
      simp [evaluate_expression, evaluate_field_with_modifiers, h, bind, Except.bind]
  · have h : applyDefaults [FieldModifier.prefixMod "P", FieldModifier.suffixMod "S"]
        (get_nested_value_as_string [("f", .str "")] ["f"]) = some "" := by rfl
    simp [evaluate_expression, evaluate_field_with_modifiers, h, bind, Except.bind]
  · intro f r st v h hv
    simp [evaluate_expression, evaluate_field_with_modifiers, h, hv, bind, Except.bind]
  · intro t ms v
    exact ⟨rfl, rfl, rfl, rfl⟩

/-- Witness for C3 at a concrete input: a field resolving to a non-empty
value has its prefix and suffix applied in order. -/
theorem empty_value_modifier_claim_witness :
    applyDefaults [FieldModifier.prefixMod "P", FieldModifier.suffixMod "S"]
      (get_nested_value_as_string [("f", JValue.str "v")] ["f"]) = some "v"
    ∧ evaluate_expression
        (.fieldWithModifiers ⟨["f"], [.prefixMod "P", .suffixMod "S"]⟩)
        [("f", JValue.str "v")] { serial_counter := 1 } =
        .ok (.str (applyPS [FieldModifier.prefixMod "P", FieldModifier.suffixMod "S"] "v"),
          { serial_counter := 1 }) :=
  ⟨rfl, empty_value_modifier_claim.2.2.1 _ _ _ _ rfl (by decide)⟩

/-- C4 counterexample: the parser turns a bare identifier into a Variable
expression, and the evaluator has no arm for Variable (the Rust match in
evaluate_expression omits it), so evaluation of a parser-producible
expression lands in the error variant reserved for unhandled kinds; the
claim that evaluate_expression never errors on parser-producible
expressions is therefore false. -/
theorem evaluator_totality_counterexample :
    parse_expression [Token.identifier "x"] = .ok (.var "x", []) ∧
    evaluate_expression (.var "x") [] { serial_counter := 1 } = .error unhandledMsg := by
  constructor
  · have h1 : parse_term [Token.identifier "x"] = .ok (.var "x", []) :=
      parse_term_var_eq "x" (by decide) (by decide) []
    have h2 : parse_expr_loop [Token.identifier "x"] [] = .ok ([.var "x"], []) := by
      rw [parse_expr_loop_eq, h1]
      rfl
    rw [parse_expression, h2]
  · simp [evaluate_expression]

/-- C4 amended: for every expression built only from the node kinds the
evaluator handles (no Variable anywhere), and for every record and state,
evaluate_expression returns a success value, never an error: missing fields
and non-object intermediates degrade to the empty string instead of
failing. -/
theorem evaluator_totality_amended (e : Expression) (r : Record) (st : EvaluatorState)
    (h : noVar e = true) : ∃ p, evaluate_expression e r st = .ok p :=
  noVar_evaluate_ok e r st h

/-- Witness for the amended C4 at a concrete Variable-free expression. -/
theorem evaluator_totality_amended_witness :
    noVar (.concat [.literal "a", .fieldPath ["missing"], .serial]) = true ∧
    ∃ p, evaluate_expression (.concat [.literal "a", .fieldPath ["missing"], .serial])
      [] { serial_counter := 1 } = .ok p :=
  ⟨by simp [noVar], evaluator_totality_amended _ _ _ (by simp [noVar])⟩

/-- C5: a Transform command produces exactly one output record per input
record, in the input order (output record i is built from input record i);
with distinct assignment keys every output record carries exactly the
assignment keys in assignment-list order, independent of the input record
key order; each Transform in a sequence fully replaces the previous
transform output (the final result after appending one more transform
depends only on the last transform and the threaded state, not on the
previous output); and the write-out step selects the most recent transform
output, or the loaded input if no transform ever ran. -/
theorem transform_output_claim :
    (∀ (asg : List (String × Expression)) (data : List Record) (st : EvaluatorState)
        (out : List Record) (st' : EvaluatorState),
        transform_records asg data st = .ok (out, st') →
          out.length = data.length ∧
            ∀ (i : Nat) (hi : i < data.length) (ho : i < out.length),
              ∃ s1 s2, build_record asg (data.get ⟨i, hi⟩) s1 [] =
                .ok (out.get ⟨i, ho⟩, s2))
    ∧ (∀ (asg : List (String × Expression)) (orig : Record) (st : EvaluatorState)
        (rec : Record) (st' : EvaluatorState),
        (asg.map Prod.fst).Nodup →
          build_record asg orig st [] = .ok (rec, st') →
            rec.map Prod.fst = asg.map Prod.fst)
    ∧ (∀ (ts : List (List (String × Expression))) (t : List (String × Expression))
        (data : List Record) (st : EvaluatorState) (cur : List Record),
        run_transforms (ts ++ [t]) data st cur =
          Except.bind (run_transforms ts data st cur)
            (fun p => transform_records t data p.2))
    ∧ (∀ (ts : List (List (String × Expression))) (data : List Record)
        (st : EvaluatorState) (lastOut : List Record) (st' : EvaluatorState),
        run_transforms ts data st [] = .ok (lastOut, st') →
          select_output lastOut data = if ts.isEmpty then data else lastOut) := by
  refine ⟨transform_records_spec, ?_, run_transforms_append, ?_⟩
  · intro asg orig st rec st' hnd h
    have := build_record_keys asg orig st [] rec st' (by simpa using hnd) h
    simpa using this
  · intro ts data st lastOut st' h
    cases ts with
    | nil =>
      simp only [run_transforms] at h
      cases h
      simp [select_output]
    | cons t rest =>
      have hlen : lastOut.length = data.length :=
        run_transforms_length _ _ _ _ _ _ (by simp) h
      by_cases hl : lastOut.isEmpty
      · have h1 : lastOut = [] := List.isEmpty_iff.mp hl
        have h2 : data = [] := by
          subst h1
          simpa using hlen.symm
        simp [select_output, h1, h2]
      · simp [select_output, hl]

/-- Witness for C5 at a concrete run: one transform over one record; the
write-out selection keeps the transform output. -/
theorem transform_output_claim_witness :
    run_transforms [[("k", Expression.literal "v")]] [[("a", JValue.str "1")]]
      { serial_counter := 1 } [] =
      .ok ([[("k", JValue.str "v")]], { serial_counter := 1 }) ∧
    select_output [[("k", JValue.str "v")]] [[("a", JValue.str "1")]] =
      [[("k", JValue.str "v")]] := by
  have h : run_transforms [[("k", Expression.literal "v")]] [[("a", JValue.str "1")]]
      { serial_counter := 1 } [] =
      .ok ([[("k", JValue.str "v")]], { serial_counter := 1 }) := by
    simp [run_transforms, transform_records, build_record, evaluate_expression,
      insertIdx, bind, Except.bind]
    rfl
  refine ⟨h, ?_⟩
  have := transform_output_claim.2.2.2 [[("k", Expression.literal "v")]]
    [[("a", JValue.str "1")]] { serial_counter := 1 } _ _ h
  simpa using this

/-- C6 (code bug record): at the evaluator interface, raw() returns the
entire current record as an object value, not a string, exactly as the claim
and the spec state; interpreter.rs line 71, however, calls
evaluate_expression with two arguments and wraps every result in
Value::String, which does not typecheck against this evaluator and would
string-wrap every output field.  This theorem evaluates the code at the
failing input, showing the evaluator side of the claim. -/
theorem raw_record_object_value :
    evaluate_expression .rawRecord [("a", JValue.str "1")] { serial_counter := 1 } =
      .ok (.obj [("a", JValue.str "1")], { serial_counter := 1 }) := by
  simp [evaluate_expression]

/-- C7 counterexample: on the literal text backslash backslash n the code
(five sequential replacements, double backslash first) produces a newline,
while the single left-to-right pass the claim describes produces backslash n;
the two decoders disagree on this input. -/
theorem literal_single_pass_counterexample :
    evaluate_expression (.literal "\\\\n") [] { serial_counter := 1 } =
      .ok (.str "\n", { serial_counter := 1 }) ∧
    singlePass5 ("\\\\n".data) = "\\n".data ∧
    unescapeChars ("\\\\n".data) ≠ singlePass5 ("\\\\n".data) := by
  have hu : unescape_string "\\\\n" = "\n" := by decide
  exact ⟨by simp [evaluate_expression, hu], by decide, by decide⟩

/-- C7 amended: evaluating a Literal returns its text decoded in two
left-to-right passes, not one: first every double backslash is collapsed to
a single backslash, then one pass replaces the four remaining escapes
(newline, carriage return, tab, quote) - so a backslash produced by the
first pass can combine with a following character and decode again, and
backslash backslash n yields a newline. -/
theorem literal_decode_amended (s : String) (r : Record) (st : EvaluatorState) :
    evaluate_expression (.literal s) r st =
      .ok (.str (List.asString (pass4 (collapseBS s.data))), st) := by
  have hu : unescape_string s = (pass4 (collapseBS s.data)).asString := by
    unfold unescape_string unescapeChars
    rw [collapseBS_eq_replace2, chain_eq_pass4, ← collapseBS_eq_replace2]
  simp [evaluate_expression, hu]

/-- C8: in the field-term loop, whenever the current token is a dot, an
identifier followed by a left parenthesis stops the path (nothing consumed;
the term then enters modifier collection), an identifier not followed by a
left parenthesis is appended as the next path segment, any other token after
the dot ends the field term, and a non-dot current token ends it as well;
the field arm of the term parser is exactly the path loop followed by
modifier collection. -/
theorem dot_lookahead_claim :
    (∀ (id : String) (rest : List Token) (path : List String),
        parse_path (Token.dot :: Token.identifier id :: Token.lparen :: rest) path =
          (path, Token.dot :: Token.identifier id :: Token.lparen :: rest))
    ∧ (∀ (id : String) (rest : List Token) (path : List String),
        rest.head? ≠ some Token.lparen →
          parse_path (Token.dot :: Token.identifier id :: rest) path =
            parse_path rest (path ++ [id]))
    ∧ (∀ (t : Token) (rest : List Token) (path : List String),
        (∀ id, t ≠ Token.identifier id) →
          parse_path (Token.dot :: t :: rest) path = (path, Token.dot :: t :: rest))
    ∧ (∀ (toks : List Token) (path : List String),
        toks.head? ≠ some Token.dot → parse_path toks path = (path, toks))
    ∧ (∀ (first : String) (toks : List Token),
        parse_term (Token.field first :: toks) =
          match parse_modifiers (parse_path toks [first]).2 [] with
          | .ok (ms, rest) => .ok (mkFieldExpr (parse_path toks [first]).1 ms, rest)
          | .error e => .error e) := by
  refine ⟨?_, ?_, ?_, ?_, ?_⟩
  · intro id rest path
    rfl
  · intro id rest path h
    cases rest with
    | nil => rfl
    | cons t r =>
      cases t <;> first
        | rfl
        | exact (h rfl).elim
  · intro t rest path h
    cases t <;> first
      | rfl
      | exact absurd rfl (h _)
  · intro toks path h
    cases toks with
    | nil => rfl
    | cons t r =>
      cases t <;> first
        | rfl
        | exact (h rfl).elim
  · intro first toks
    rcases hp : parse_path toks [first] with ⟨path, rest⟩
    simp only [parse_term, hp]

/-- Witness for C8 at concrete token lists, exercising the segment case and
the modifier-call case. -/
theorem dot_lookahead_claim_witness :
    parse_path [Token.dot, Token.identifier "b"] ["a"] = parse_path [] (["a"] ++ ["b"])
    ∧ parse_path (Token.dot :: Token.identifier "suffix" :: Token.lparen ::
        [Token.stringLiteral "s", Token.rparen]) ["a"] =
      (["a"], Token.dot :: Token.identifier "suffix" :: Token.lparen ::
        [Token.stringLiteral "s", Token.rparen]) :=
  ⟨dot_lookahead_claim.2.1 "b" [] ["a"] (by decide),
    dot_lookahead_claim.1 "suffix" [Token.stringLiteral "s", Token.rparen] ["a"]⟩

/-- C9 counterexample: a well-started modifier call whose string argument is
not followed by a right parenthesis does raise a parse error (the expect
failure), so malformed modifier calls do not always terminate collection
silently as the claim states. -/
theorem modifier_error_counterexample :
    parse_modifiers [Token.dot, Token.identifier "prefix", Token.lparen,
      Token.stringLiteral "P", Token.semicolon] [] =
      .error (expectMsg Token.rparen Token.semicolon) := by
  rfl

/-- C9 amended: during modifier collection, an identifier other than prefix,
suffix or default (case-sensitive) ends collection silently after consuming
the well-formed call, keeping the modifiers collected so far; a call whose
argument position holds a non-string token ends collection silently (the
dot, identifier and left parenthesis having been consumed); a dot not
followed by identifier plus left parenthesis ends collection silently with
nothing consumed; but a missing right parenthesis after a string argument
raises the expect parse error instead of terminating silently; and a
recognized well-formed call records its modifier and continues. -/
theorem modifier_collection_amended :
    (∀ (name s : String) (rest : List Token) (acc : List FieldModifier),
        modFromName name s = none →
          parse_modifiers (Token.dot :: Token.identifier name :: Token.lparen ::
            Token.stringLiteral s :: Token.rparen :: rest) acc = .ok (acc, rest))
    ∧ (∀ (name : String) (t : Token) (rest : List Token) (acc : List FieldModifier),
        (∀ s, t ≠ Token.stringLiteral s) →
          parse_modifiers (Token.dot :: Token.identifier name :: Token.lparen ::
            t :: rest) acc = .ok (acc, t :: rest))
    ∧ (∀ (name : String) (t : Token) (rest : List Token) (acc : List FieldModifier),
        t ≠ Token.lparen →
          parse_modifiers (Token.dot :: Token.identifier name :: t :: rest) acc =
            .ok (acc, Token.dot :: Token.identifier name :: t :: rest))
    ∧ (∀ (name s : String) (t : Token) (rest : List Token) (acc : List FieldModifier),
        t ≠ Token.rparen →
          parse_modifiers (Token.dot :: Token.identifier name :: Token.lparen ::
            Token.stringLiteral s :: t :: rest) acc =
            .error (expectMsg Token.rparen t))
    ∧ (∀ (name s : String) (rest : List Token) (acc : List FieldModifier)
        (m : FieldModifier),
        modFromName name s = some m →
          parse_modifiers (Token.dot :: Token.identifier name :: Token.lparen ::
            Token.stringLiteral s :: Token.rparen :: rest) acc =
            parse_modifiers rest (acc ++ [m])) := by
  refine ⟨?_, ?_, ?_, ?_, ?_⟩
  · intro name s rest acc hm
    simp [parse_modifiers, hm]
  · intro name t rest acc ht
    cases t <;> first
      | rfl
      | exact absurd rfl (ht _)
  · intro name t rest acc ht
    cases t <;> first
      | rfl
      | exact absurd rfl ht
  · intro name s t rest acc ht
    cases t <;> first
      | rfl
      | exact absurd rfl ht
  · intro name s rest acc m hm
    simp [parse_modifiers, hm]

/-- Witness for the amended C9 at concrete token lists: an unknown modifier
name ends collection silently keeping earlier modifiers, and a known one is
recorded. -/
theorem modifier_collection_amended_witness :
    parse_modifiers [Token.dot, Token.identifier "bogus", Token.lparen,
      Token.stringLiteral "P", Token.rparen, Token.semicolon]
      [FieldModifier.suffixMod "s"] =
      .ok ([FieldModifier.suffixMod "s"], [Token.semicolon]) ∧
    parse_modifiers [Token.dot, Token.identifier "suffix", Token.lparen,
      Token.stringLiteral "P", Token.rparen] [] =
      parse_modifiers [] ([] ++ [FieldModifier.suffixMod "P"]) :=
  ⟨modifier_collection_amended.1 "bogus" "P" [Token.semicolon]
      [FieldModifier.suffixMod "s"] (by decide),
    modifier_collection_amended.2.2.2.2 "suffix" "P" [] [] (FieldModifier.suffixMod "P")
      (by decide)⟩

/-- C10: the lexer word classifier sends the words let and const to generic
identifier tokens; its keyword set is exactly input, output, transform and
print; tokenizing script text beginning with let or const (followed by a
space) yields an identifier token, never a dedicated keyword token (none
exists in the Token type); the parser rejects a script whose command
position starts with such an identifier with the command-position error; and
no parse result ever contains a Let or Const command, so those branches of
the Rust parser are unreachable from lexer output. -/
theorem let_const_claim :
    readWordToken "let" = Token.identifier "let"
    ∧ readWordToken "const" = Token.identifier "const"
    ∧ (∀ w : String, (readWordToken w = Token.input ↔ w = "input")
        ∧ (readWordToken w = Token.output ↔ w = "output")
        ∧ (readWordToken w = Token.transform ↔ w = "transform")
        ∧ (readWordToken w = Token.print ↔ w = "print"))
    ∧ (∀ cs : List Char, tokenize ('l' :: 'e' :: 't' :: ' ' :: cs) =
        Token.identifier "let" :: tokenize cs)
    ∧ (∀ cs : List Char, tokenize ('c' :: 'o' :: 'n' :: 's' :: 't' :: ' ' :: cs) =
        Token.identifier "const" :: tokenize cs)
    ∧ (∀ rest : List Token, parse (Token.identifier "let" :: rest) =
        .error ("Unexpected token in command position: " ++
          debugToken (Token.identifier "let")))
    ∧ (∀ rest : List Token, parse (Token.identifier "const" :: rest) =
        .error ("Unexpected token in command position: " ++
          debugToken (Token.identifier "const")))
    ∧ (∀ (toks : List Token) (cmds : List Command), parse toks = .ok cmds →
        ∀ c ∈ cmds, (∀ n e, c ≠ Command.letCmd n e) ∧ (∀ n e, c ≠ Command.constCmd n e)) := by
  refine ⟨by decide, by decide, readWordToken_kw_iff, tokenize_let, tokenize_const,
    ?_, ?_, ?_⟩
  · intro rest
    show parse_commands _ = _
    rw [parse_commands_other (Token.identifier "let") rest
      (by decide) (by decide) (by decide) (by decide) (fun c => by simp)]
  · intro rest
    show parse_commands _ = _
    rw [parse_commands_other (Token.identifier "const") rest
      (by decide) (by decide) (by decide) (by decide) (fun c => by simp)]
  · intro toks cmds h
    exact parse_commands_no_let_const toks cmds h

/-- Witness for C10 at a concrete script and token list, also instantiating
the no-let-no-const conjunct on a concretely parsed command list. -/
theorem let_const_claim_witness :
    parse (Token.identifier "let" :: [Token.identifier "x", Token.equal,
      Token.stringLiteral "v", Token.semicolon]) =
      .error ("Unexpected token in command position: " ++
        debugToken (Token.identifier "let")) ∧
    tokenize ('l' :: 'e' :: 't' :: ' ' :: " x".data) =
      Token.identifier "let" :: tokenize " x".data ∧
    ∀ c ∈ [Command.print], (∀ n e, c ≠ Command.letCmd n e) ∧
      (∀ n e, c ≠ Command.constCmd n e) := by
  have hp : parse [Token.print, Token.semicolon] = .ok [Command.print] := by
    show parse_commands _ = _
    rw [parse_commands_print]
    have h1 : parse_print [Token.semicolon] = .ok (Command.print, []) := rfl
    simp only [h1, parse_commands_nil]
  exact ⟨let_const_claim.2.2.2.2.2.1 [Token.identifier "x", Token.equal,
      Token.stringLiteral "v", Token.semicolon],
    let_const_claim.2.2.2.1 " x".data,
    let_const_claim.2.2.2.2.2.2.2 [Token.print, Token.semicolon] [Command.print] hp⟩
